import Mathlib

/-!
Shallow embedding of `src/Models/M1_VRP_W&C.py`: the Clarke & Wright
savings heuristic for a single-period reverse (collection) vehicle
routing problem.  Python floats are modelled by `ℚ` (all arithmetic in
the relevant inputs is exact), Python lists by `List`, the
`route_of_customer` dict by a total function `Nat → Nat` updated exactly
where the Python code writes the dict, and the `returns` dict (read only
through `returns.get(i, 0.0)`) by a total function `Nat → ℚ`.
List indexing is modelled by `List.getD` with a default value; every
theorem below is proved under invariants that keep all accesses
in-bounds, exactly where the Python code would not raise.
-/

namespace CW

/-- Mirror of the constructor arguments stored by
`ClarkeWrightReverseIRP.__init__`: distance matrix `d`, collection
quantities `returns` (as the total function `i ↦ returns.get(i, 0.0)`),
vehicle capacity `Q` and depot index. -/
structure CWConfig where
  d : List (List ℚ)
  returns : Nat → ℚ
  Q : ℚ
  depot : Nat

/-- `self.n = len(distance_matrix)`. -/
def CWConfig.n (cfg : CWConfig) : Nat := cfg.d.length

/-- Matrix access `self.d[i][j]`, with default `0` out of bounds. -/
def dget (d : List (List ℚ)) (i j : Nat) : ℚ := (d.getD i []).getD j 0

/-- `route_cost`: sum of `d[route[k]][route[k+1]]` over consecutive pairs. -/
def route_cost (d : List (List ℚ)) : List Nat → ℚ
  | x :: y :: rest => dget d x y + route_cost d (y :: rest)
  | _ => 0

/-- `total_cost`: sum of the route costs. -/
def total_cost (d : List (List ℚ)) (routes : List (List Nat)) : ℚ :=
  (routes.map (route_cost d)).sum

/-- The list `[i for i in range(n) if i != depot]` used throughout. -/
def customersList (n depot : Nat) : List Nat :=
  (List.range n).filter (fun i => i ≠ depot)

/-- The savings list before sorting: for each `i` in customers and each
`j` in customers with `i < j` (the Python loop skips `j ≤ i`), the
triple `(d[depot][i] + d[depot][j] - d[i][j], i, j)`, in generation
order. -/
def rawSavings (cfg : CWConfig) : List (ℚ × Nat × Nat) :=
  (customersList cfg.n cfg.depot).flatMap (fun i =>
    ((customersList cfg.n cfg.depot).filter (fun j => i < j)).map (fun j =>
      (dget cfg.d cfg.depot i + dget cfg.d cfg.depot j - dget cfg.d i j, i, j)))

/-- `compute_savings`: the savings list sorted by value, descending,
with a stable sort (Python `list.sort(reverse=True, key=...)` is a
stable sort; `List.insertionSort` with this relation is one too, and
any two stable sorts of the same list by the same key agree). -/
def compute_savings (cfg : CWConfig) : List (ℚ × Nat × Nat) :=
  (rawSavings cfg).insertionSort (fun a b => b.1 ≤ a.1)

/-- The mutable solver state: `self.routes`, `self.route_loads` and the
dict `self.route_of_customer` (as a total function). -/
structure CWState where
  routes : List (List Nat)
  route_loads : List ℚ
  route_of_customer : Nat → Nat

/-- `init_routes`: one route `[depot, i, depot]` per customer, with load
`returns.get(i, 0.0)`, and `route_of_customer[i] = idx` for the
enumeration index `idx` of `i` in the customers list. -/
def init_routes (cfg : CWConfig) : CWState :=
  let customers := customersList cfg.n cfg.depot
  { routes := customers.map (fun i => [cfg.depot, i, cfg.depot])
    route_loads := customers.map (fun i => cfg.returns i)
    route_of_customer :=
      customers.enum.foldl (fun f p => Function.update f p.2 p.1) (fun _ => 0) }

/-- The route currently holding `x`: `self.routes[self.route_of_customer[x]]`. -/
def routeOf (st : CWState) (x : Nat) : List Nat :=
  st.routes.getD (st.route_of_customer x) []

/-- `route[1] == x`: `x` sits just after the leading depot. -/
def isFirstCustomer (st : CWState) (x : Nat) : Bool :=
  (routeOf st x).getD 1 0 == x

/-- `route[-2] == x`: `x` sits just before the trailing depot. -/
def isLastCustomer (st : CWState) (x : Nat) : Bool :=
  (routeOf st x).getD ((routeOf st x).length - 2) 0 == x

/-- `can_merge(i, j)`: false when `i` and `j` share a route, when either
is not an endpoint of its route, or when the combined load exceeds the
capacity; true otherwise. -/
def can_merge (cfg : CWConfig) (st : CWState) (i j : Nat) : Bool :=
  if st.route_of_customer i = st.route_of_customer j then false
  else if !(isFirstCustomer st i || isLastCustomer st i) then false
  else if !(isFirstCustomer st j || isLastCustomer st j) then false
  else if cfg.Q < st.route_loads.getD (st.route_of_customer i) 0 +
            st.route_loads.getD (st.route_of_customer j) 0 then false
  else true

/-- The tail of `merge` shared by the four splice cases: write the new
route and its load into slot `ri`, re-point every non-depot node of the
new route to `ri`, then delete slot `rj` by moving the last slot into it
(re-pointing that route's nodes) and popping the last slot. -/
def mergeCommit (cfg : CWConfig) (st : CWState) (ri rj : Nat)
    (new_route : List Nat) : CWState :=
  let new_load := st.route_loads.getD ri 0 + st.route_loads.getD rj 0
  let routes1 := st.routes.set ri new_route
  let loads1 := st.route_loads.set ri new_load
  let roc1 := new_route.foldl
    (fun f node => if node = cfg.depot then f else Function.update f node ri)
    st.route_of_customer
  let last_idx := routes1.length - 1
  if rj ≠ last_idx then
    let moved := routes1.getD last_idx []
    { routes := (routes1.set rj moved).dropLast
      route_loads := (loads1.set rj (loads1.getD last_idx 0)).dropLast
      route_of_customer := moved.foldl
        (fun f node => if node = cfg.depot then f else Function.update f node rj)
        roc1 }
  else
    { routes := routes1.dropLast
      route_loads := loads1.dropLast
      route_of_customer := roc1 }

/-- `merge(i, j)`: the four splice cases (`route[:-1]` is `dropLast`,
`route[1:]` is `tail`, `route[::-1]` is `reverse`), tried in the order
of the Python `if`/`elif` chain; the final `else` returns the state
unchanged. -/
def merge (cfg : CWConfig) (st : CWState) (i j : Nat) : CWState :=
  let ri := st.route_of_customer i
  let rj := st.route_of_customer j
  let route_i := st.routes.getD ri []
  let route_j := st.routes.getD rj []
  if isLastCustomer st i && isFirstCustomer st j then
    mergeCommit cfg st ri rj (route_i.dropLast ++ route_j.tail)
  else if isFirstCustomer st i && isLastCustomer st j then
    mergeCommit cfg st ri rj (route_j.dropLast ++ route_i.tail)
  else if isFirstCustomer st i && isFirstCustomer st j then
    mergeCommit cfg st ri rj (route_i.reverse.dropLast ++ route_j.tail)
  else if isLastCustomer st i && isLastCustomer st j then
    mergeCommit cfg st ri rj (route_i.dropLast ++ route_j.reverse.tail)
  else st

/-- One iteration of the solver loop: `if can_merge(i, j): merge(i, j)`. -/
def step (cfg : CWConfig) (st : CWState) (t : ℚ × Nat × Nat) : CWState :=
  if can_merge cfg st t.2.1 t.2.2 then merge cfg st t.2.1 t.2.2 else st

/-- The solver loop over a savings list. -/
def applyMerges (cfg : CWConfig) (ts : List (ℚ × Nat × Nat)) (st : CWState) :
    CWState :=
  ts.foldl (step cfg) st

/-- Mirror of the `ClarkeWrightResult` dataclass. -/
structure ClarkeWrightResult where
  routes : List (List Nat)
  total_cost : ℚ

/-- `solve()`: initialise, compute savings, run the merge loop, return
the routes with their total cost. -/
def solve (cfg : CWConfig) : ClarkeWrightResult :=
  let st0 := init_routes cfg
  let savings_list := compute_savings cfg
  let stF := applyMerges cfg savings_list st0
  { routes := stF.routes, total_cost := total_cost cfg.d stF.routes }

/-- The customer sequence of a depot-anchored route: drop the leading
and trailing depot. -/
def interiorOf (r : List Nat) : List Nat := r.tail.dropLast

/-- Aggregate load of a route: the sum of its customers' demands. -/
def routeLoad (cfg : CWConfig) (r : List Nat) : ℚ :=
  ((interiorOf r).map cfg.returns).sum

/-- Total cost of the trivial one-route-per-customer baseline:
`d[depot][c] + d[c][depot]` summed over all customers. -/
def baselineCost (cfg : CWConfig) : ℚ :=
  ((customersList cfg.n cfg.depot).map
    (fun c => dget cfg.d cfg.depot c + dget cfg.d c cfg.depot)).sum

/-- The worked scenario of the specification: 3 customers, depot `0`,
capacity `5`. -/
def cfg5 : CWConfig :=
  { d := [[0, 10, 20, 30], [10, 0, 15, 25], [20, 15, 0, 18], [30, 25, 18, 0]]
    returns := fun k => if k = 1 then 2 else if k = 2 then 3 else if k = 3 then 1 else 0
    Q := 5
    depot := 0 }

/-- Input with one customer whose demand (10) exceeds the capacity (5). -/
def cfgC6 : CWConfig :=
  { d := [[0, 1], [1, 0]], returns := fun k => if k = 1 then 10 else 0, Q := 5, depot := 0 }

/-- Symmetric matrix with non-negative entries whose single saving is
negative: `s(1,2) = 0 + 0 - 100`. -/
def cfgC7 : CWConfig :=
  { d := [[0, 0, 0], [0, 0, 100], [0, 100, 0]], returns := fun k => if k = 0 then 0 else 1,
    Q := 10, depot := 0 }

/-- Input where customer 1 has demand 10 over capacity 5 while customer
2 (demand 1) could otherwise be merged with it. -/
def cfgC8 : CWConfig :=
  { d := [[0, 1, 2], [1, 0, 3], [2, 3, 0]],
    returns := fun k => if k = 1 then 10 else if k = 2 then 1 else 0, Q := 5, depot := 0 }

/-- A non-square distance matrix: two rows of length three. -/
def cfgC9 : CWConfig :=
  { d := [[0, 1, 5], [1, 0, 5]], returns := fun k => if k = 1 then 1 else 0, Q := 10, depot := 0 }

/-- A one-node matrix with an out-of-range depot index (5). -/
def cfgC9b : CWConfig := { d := [[0]], returns := fun _ => 0, Q := 1, depot := 5 }

/-- A depot-anchored route: the depot, then a nonempty depot-free
customer sequence, then the depot again. -/
def IsRouteForm (dep : Nat) (r : List Nat) : Prop :=
  r = dep :: interiorOf r ++ [dep] ∧ interiorOf r ≠ [] ∧ dep ∉ interiorOf r

/-- The state invariant maintained by the algorithm: loads and routes
have the same length, every stored route is depot-anchored with a
nonempty duplicate-free depot-free interior, `route_of_customer` sends
every customer to an in-range slot whose route contains it, every
interior node of every slot is a customer pointing back at that slot,
and every slot's recorded load is the sum of its customers' demands. -/
structure Inv (cfg : CWConfig) (st : CWState) : Prop where
  hlen : st.route_loads.length = st.routes.length
  hform : ∀ r ∈ st.routes, IsRouteForm cfg.depot r
  hnodup : ∀ r ∈ st.routes, (interiorOf r).Nodup
  hroc : ∀ c ∈ customersList cfg.n cfg.depot,
    st.route_of_customer c < st.routes.length ∧
      c ∈ interiorOf (st.routes.getD (st.route_of_customer c) [])
  hmem : ∀ k, k < st.routes.length → ∀ c ∈ interiorOf (st.routes.getD k []),
    c ∈ customersList cfg.n cfg.depot ∧ st.route_of_customer c = k
  hload : ∀ k, k < st.routes.length →
    st.route_loads.getD k 0 = routeLoad cfg (st.routes.getD k [])

/-- Every tracked route load is at most the capacity. -/
def CapOk (cfg : CWConfig) (st : CWState) : Prop :=
  ∀ k, k < st.routes.length → st.route_loads.getD k 0 ≤ cfg.Q

/-- The customer `c` still sits on its own untouched singleton route,
with its own demand as the recorded load. -/
def Pinned (cfg : CWConfig) (st : CWState) (c : Nat) : Prop :=
  st.routes.getD (st.route_of_customer c) [] = [cfg.depot, c, cfg.depot] ∧
  st.route_loads.getD (st.route_of_customer c) 0 = cfg.returns c


/-! ## Generic list helpers -/

theorem getD_set_self {α : Type} (l : List α) (k : Nat) (a d : α) (h : k < l.length) :
    (l.set k a).getD k d = a := by
  rw [List.getD_eq_getElem?_getD, List.getElem?_set_self h]
  rfl

theorem getD_set_ne {α : Type} (l : List α) (k m : Nat) (a d : α) (h : k ≠ m) :
    (l.set k a).getD m d = l.getD m d := by
  rw [List.getD_eq_getElem?_getD, List.getElem?_set_ne h, ← List.getD_eq_getElem?_getD]

theorem getD_dropLast {α : Type} (l : List α) (m : Nat) (d : α) (h : m < l.length - 1) :
    l.dropLast.getD m d = l.getD m d := by
  rw [List.getD_eq_getElem?_getD, List.getElem?_dropLast, if_pos h,
    ← List.getD_eq_getElem?_getD]

theorem getD_mem_of_lt {α : Type} (l : List α) (m : Nat) (d : α) (h : m < l.length) :
    l.getD m d ∈ l := by
  rw [List.getD_eq_getElem?_getD, List.getElem?_eq_getElem h]
  exact List.getElem_mem h

/-- The dict-update loop `for node in route: if node != depot: roc[node] = v`. -/
theorem foldl_update_eq (depot v : Nat) (l : List Nat) (f : Nat → Nat) (c : Nat) :
    (l.foldl (fun f node => if node = depot then f else Function.update f node v) f) c
      = if c ≠ depot ∧ c ∈ l then v else f c := by
  induction l generalizing f with
  | nil => simp
  | cons a l ih =>
    rw [List.foldl_cons, ih]
    by_cases hc : c ≠ depot ∧ c ∈ l
    · simp [hc.1, hc.2]
    · have hrest : (if c ≠ depot ∧ c ∈ a :: l then v else f c)
          = if c ≠ depot ∧ c = a then v else f c := by
        by_cases hd : c ≠ depot
        · by_cases hca : c = a
          · simp [hd, hca]
          · have : ¬(c ≠ depot ∧ c ∈ a :: l) := by
              rintro ⟨-, hm⟩
              rcases List.mem_cons.mp hm with h' | h'
              · exact hca h'
              · exact hc ⟨hd, h'⟩
            simp only [this, if_neg, hca, and_false, if_false]
        · simp [hd]
      rw [if_neg hc, hrest]
      by_cases ha : a = depot
      · have : ¬(c ≠ depot ∧ c = a) := by rintro ⟨h1, rfl⟩; exact h1 ha
        simp [ha, this]
      · rw [if_neg ha, Function.update_apply]
        by_cases hca : c = a
        · subst hca; simp [ha]
        · simp [hca]

/-- The dict built by `for idx, i in enumerate(customers): roc[i] = idx`. -/
theorem enumFrom_foldl_update {l : List Nat} (hl : l.Nodup) (n : Nat) (f : Nat → Nat)
    (c : Nat) :
    ((l.enumFrom n).foldl (fun f p => Function.update f p.2 p.1) f) c
      = if c ∈ l then n + l.indexOf c else f c := by
  induction l generalizing n f with
  | nil => simp
  | cons a l ih =>
    rw [List.enumFrom_cons, List.foldl_cons, ih (List.Nodup.of_cons hl)]
    by_cases hc : c ∈ l
    · have hca : c ≠ a := by
        rintro rfl
        exact (List.nodup_cons.mp hl).1 hc
      rw [if_pos hc, if_pos (List.mem_cons_of_mem a hc), List.indexOf_cons_ne l hca.symm]
      omega
    · rw [if_neg hc, Function.update_apply]
      by_cases hca : c = a
      · subst hca
        simp [List.indexOf_cons_self]
      · simp [hca, hc]

/-! ## Route shape helpers -/

theorem interiorOf_anchored (dep : Nat) (cs : List Nat) :
    interiorOf (dep :: cs ++ [dep]) = cs := by
  show (cs ++ [dep]).dropLast = cs
  exact List.dropLast_concat

theorem isRouteForm_intro (dep : Nat) (cs : List Nat) (h1 : cs ≠ []) (h2 : dep ∉ cs) :
    IsRouteForm dep (dep :: cs ++ [dep]) := by
  unfold IsRouteForm
  rw [interiorOf_anchored]
  exact ⟨rfl, h1, h2⟩

theorem getD_append_right_len {α : Type} (l₁ l₂ : List α) (d : α) :
    (l₁ ++ l₂).getD l₁.length d = l₂.getD 0 d := by
  rw [List.getD_eq_getElem?_getD, List.getElem?_append_right (le_refl _), Nat.sub_self,
    ← List.getD_eq_getElem?_getD]

theorem getD_one_anchored (dep c : Nat) (cs : List Nat) :
    (dep :: (c :: cs) ++ [dep]).getD 1 0 = c := rfl

theorem getD_penult_anchored (dep x : Nat) (cs : List Nat) :
    (dep :: (cs ++ [x]) ++ [dep]).getD ((dep :: (cs ++ [x]) ++ [dep]).length - 2) 0 = x := by
  have hlen : (dep :: (cs ++ [x]) ++ [dep]).length - 2 = cs.length + 1 := by
    simp
  rw [hlen]
  show (dep :: ((cs ++ [x]) ++ [dep])).getD (cs.length + 1) 0 = x
  rw [List.getD_cons_succ, List.append_assoc]
  have := getD_append_right_len cs ([x] ++ [dep]) 0
  rw [this]
  rfl

theorem isFirst_iff_head {st : CWState} {x dep : Nat} {cs : List Nat}
    (hr : routeOf st x = dep :: cs ++ [dep]) (hcs : cs ≠ []) :
    isFirstCustomer st x = true ↔ cs.getD 0 0 = x := by
  unfold isFirstCustomer
  rw [hr]
  cases cs with
  | nil => exact absurd rfl hcs
  | cons c cs' =>
    rw [getD_one_anchored, List.getD_cons_zero, beq_iff_eq]

theorem isLast_iff_last {st : CWState} {x dep : Nat} {cs : List Nat}
    (hr : routeOf st x = dep :: cs ++ [dep]) (hcs : cs ≠ []) :
    isLastCustomer st x = true ↔ cs.getLast hcs = x := by
  unfold isLastCustomer
  rw [hr]
  rcases List.eq_nil_or_concat cs with h | ⟨cs', y, rfl⟩
  · exact absurd h hcs
  · simp only [List.concat_eq_append]
    rw [getD_penult_anchored, beq_iff_eq]
    simp [List.getLast_append]

/-! ## The customers list -/

theorem mem_customersList {n dep c : Nat} :
    c ∈ customersList n dep ↔ c < n ∧ c ≠ dep := by
  unfold customersList
  rw [List.mem_filter, List.mem_range]
  simp

theorem customersList_nodup (n dep : Nat) : (customersList n dep).Nodup :=
  (List.nodup_range n).filter _

theorem ne_depot_of_mem_customersList {n dep c : Nat} (h : c ∈ customersList n dep) :
    c ≠ dep := (mem_customersList.mp h).2

/-! ## The solver invariant -/

theorem init_roc_eq (cfg : CWConfig) (c : Nat) :
    (init_routes cfg).route_of_customer c
      = if c ∈ customersList cfg.n cfg.depot
          then (customersList cfg.n cfg.depot).indexOf c else 0 := by
  show ((customersList cfg.n cfg.depot).enumFrom 0).foldl
      (fun f p => Function.update f p.2 p.1) (fun _ => 0) c = _
  rw [enumFrom_foldl_update (customersList_nodup _ _)]
  by_cases h : c ∈ customersList cfg.n cfg.depot <;> simp [h]

theorem init_routes_getD (cfg : CWConfig) (k : Nat)
    (hk : k < (customersList cfg.n cfg.depot).length) :
    (init_routes cfg).routes.getD k []
      = [cfg.depot, (customersList cfg.n cfg.depot)[k], cfg.depot] := by
  show ((customersList cfg.n cfg.depot).map
      (fun i => [cfg.depot, i, cfg.depot])).getD k [] = _
  rw [List.getD_eq_getElem?_getD, List.getElem?_eq_getElem (by simpa using hk)]
  simp

theorem inv_init (cfg : CWConfig) : Inv cfg (init_routes cfg) := by
  have hlenr : (init_routes cfg).routes.length = (customersList cfg.n cfg.depot).length := by
    simp [init_routes]
  constructor
  · simp [init_routes]
  · intro r hr
    simp only [init_routes, List.mem_map] at hr
    obtain ⟨c, hc, rfl⟩ := hr
    have : [cfg.depot, c, cfg.depot] = cfg.depot :: [c] ++ [cfg.depot] := rfl
    rw [this]
    exact isRouteForm_intro _ _ (by simp)
      (by simp [Ne.symm (ne_depot_of_mem_customersList hc)])
  · intro r hr
    simp only [init_routes, List.mem_map] at hr
    obtain ⟨c, hc, rfl⟩ := hr
    show ([c] : List Nat).Nodup
    simp
  · intro c hc
    rw [init_roc_eq, if_pos hc]
    have hidx : (customersList cfg.n cfg.depot).indexOf c
        < (customersList cfg.n cfg.depot).length := List.indexOf_lt_length.mpr hc
    refine ⟨by rw [hlenr]; exact hidx, ?_⟩
    rw [init_routes_getD cfg _ hidx]
    have heq : (customersList cfg.n cfg.depot)[(customersList cfg.n cfg.depot).indexOf c]
        = c := List.getElem_indexOf hidx
    rw [heq]
    show c ∈ interiorOf (cfg.depot :: [c] ++ [cfg.depot])
    rw [interiorOf_anchored]
    simp
  · intro k hk c hcmem
    rw [hlenr] at hk
    rw [init_routes_getD cfg k hk] at hcmem
    have hint : interiorOf [cfg.depot, (customersList cfg.n cfg.depot)[k], cfg.depot]
        = [(customersList cfg.n cfg.depot)[k]] := rfl
    rw [hint, List.mem_singleton] at hcmem
    subst hcmem
    have hmemk : (customersList cfg.n cfg.depot)[k]
        ∈ customersList cfg.n cfg.depot := List.getElem_mem hk
    refine ⟨hmemk, ?_⟩
    rw [init_roc_eq, if_pos hmemk]
    have hidx : (customersList cfg.n cfg.depot).indexOf
        ((customersList cfg.n cfg.depot)[k])
        < (customersList cfg.n cfg.depot).length :=
      List.indexOf_lt_length.mpr hmemk
    have h2 := List.getElem_indexOf hidx
    exact ((customersList_nodup cfg.n cfg.depot).getElem_inj_iff).mp h2
  · intro k hk
    rw [hlenr] at hk
    rw [init_routes_getD cfg k hk]
    show ((customersList cfg.n cfg.depot).map cfg.returns).getD k 0 = _
    rw [List.getD_eq_getElem?_getD, List.getElem?_eq_getElem (by simpa using hk)]
    unfold routeLoad
    have hint : interiorOf [cfg.depot, (customersList cfg.n cfg.depot)[k], cfg.depot]
        = [(customersList cfg.n cfg.depot)[k]] := rfl
    rw [hint]
    simp

/-! ## Pointwise description of `mergeCommit` -/

theorem mergeCommit_routes_length (cfg : CWConfig) (st : CWState) (ri rj : Nat)
    (nr : List Nat) :
    (mergeCommit cfg st ri rj nr).routes.length = st.routes.length - 1 := by
  dsimp only [mergeCommit]
  split <;> simp

theorem mergeCommit_loads_length (cfg : CWConfig) (st : CWState) (ri rj : Nat)
    (nr : List Nat) :
    (mergeCommit cfg st ri rj nr).route_loads.length = st.route_loads.length - 1 := by
  dsimp only [mergeCommit]
  split <;> simp

theorem mergeCommit_routes_getD (cfg : CWConfig) (st : CWState) (ri rj : Nat)
    (nr : List Nat) (hri : ri < st.routes.length) (hrj : rj < st.routes.length)
    (hne : ri ≠ rj) (m : Nat) (hm : m < st.routes.length - 1) :
    (mergeCommit cfg st ri rj nr).routes.getD m []
      = if m = ri then nr
        else if m = rj then
          (if ri = st.routes.length - 1 then nr
           else st.routes.getD (st.routes.length - 1) [])
        else st.routes.getD m [] := by
  dsimp only [mergeCommit]
  rw [List.length_set]
  by_cases hcase : rj = st.routes.length - 1
  · rw [if_neg (by simpa using hcase)]
    show ((st.routes.set ri nr).dropLast).getD m [] = _
    rw [getD_dropLast _ _ _ (by rw [List.length_set]; exact hm)]
    by_cases hmri : m = ri
    · subst hmri
      rw [getD_set_self _ _ _ _ hri, if_pos rfl]
    · rw [getD_set_ne _ _ _ _ _ (fun h => hmri h.symm), if_neg hmri,
        if_neg (by omega)]
  · rw [if_pos (by simpa using hcase)]
    show (((st.routes.set ri nr).set rj ((st.routes.set ri nr).getD
        (st.routes.length - 1) [])).dropLast).getD m [] = _
    rw [getD_dropLast _ _ _ (by simp; exact hm)]
    by_cases hmrj : m = rj
    · subst hmrj
      rw [getD_set_self _ _ _ _ (by rw [List.length_set]; exact hrj),
        if_neg (fun h => hne h.symm), if_pos rfl]
      by_cases hril : ri = st.routes.length - 1
      · rw [if_pos hril, ← hril, getD_set_self _ _ _ _ hri]
      · rw [if_neg hril, getD_set_ne _ _ _ _ _ (fun h => hril h)]
    · rw [getD_set_ne _ _ _ _ _ (fun h => hmrj h.symm)]
      by_cases hmri : m = ri
      · subst hmri
        rw [getD_set_self _ _ _ _ hri, if_pos rfl]
      · rw [getD_set_ne _ _ _ _ _ (fun h => hmri h.symm), if_neg hmri, if_neg hmrj]

theorem mergeCommit_loads_getD (cfg : CWConfig) (st : CWState) (ri rj : Nat)
    (nr : List Nat) (hlen : st.route_loads.length = st.routes.length)
    (hri : ri < st.routes.length) (hrj : rj < st.routes.length)
    (hne : ri ≠ rj) (m : Nat) (hm : m < st.routes.length - 1) :
    (mergeCommit cfg st ri rj nr).route_loads.getD m 0
      = if m = ri then st.route_loads.getD ri 0 + st.route_loads.getD rj 0
        else if m = rj then
          (if ri = st.routes.length - 1 then
            st.route_loads.getD ri 0 + st.route_loads.getD rj 0
           else st.route_loads.getD (st.routes.length - 1) 0)
        else st.route_loads.getD m 0 := by
  have hri' : ri < st.route_loads.length := by omega
  dsimp only [mergeCommit]
  rw [List.length_set]
  by_cases hcase : rj = st.routes.length - 1
  · rw [if_neg (by simpa using hcase)]
    show ((st.route_loads.set ri _).dropLast).getD m 0 = _
    rw [getD_dropLast _ _ _ (by rw [List.length_set]; omega)]
    by_cases hmri : m = ri
    · subst hmri
      rw [getD_set_self _ _ _ _ hri', if_pos rfl]
    · rw [getD_set_ne _ _ _ _ _ (fun h => hmri h.symm), if_neg hmri,
        if_neg (by omega)]
  · rw [if_pos (by simpa using hcase)]
    show (((st.route_loads.set ri _).set rj ((st.route_loads.set ri _).getD
        (st.routes.length - 1) 0)).dropLast).getD m 0 = _
    rw [getD_dropLast _ _ _ (by simp; omega)]
    by_cases hmrj : m = rj
    · subst hmrj
      rw [getD_set_self _ _ _ _ (by rw [List.length_set]; omega),
        if_neg (fun h => hne h.symm), if_pos rfl]
      by_cases hril : ri = st.routes.length - 1
      · rw [if_pos hril, ← hril, getD_set_self _ _ _ _ hri']
      · rw [if_neg hril, getD_set_ne _ _ _ _ _ (fun h => hril h)]
    · rw [getD_set_ne _ _ _ _ _ (fun h => hmrj h.symm)]
      by_cases hmri : m = ri
      · subst hmri
        rw [getD_set_self _ _ _ _ hri', if_pos rfl]
      · rw [getD_set_ne _ _ _ _ _ (fun h => hmri h.symm), if_neg hmri, if_neg hmrj]

theorem mergeCommit_roc (cfg : CWConfig) (st : CWState) (ri rj : Nat)
    (nr : List Nat) (hri : ri < st.routes.length) (c : Nat) :
    (mergeCommit cfg st ri rj nr).route_of_customer c
      = if c = cfg.depot then st.route_of_customer c
        else if rj ≠ st.routes.length - 1 ∧
            c ∈ (if ri = st.routes.length - 1 then nr
                 else st.routes.getD (st.routes.length - 1) []) then rj
        else if c ∈ nr then ri
        else st.route_of_customer c := by
  dsimp only [mergeCommit]
  rw [List.length_set]
  have hmoved : (st.routes.set ri nr).getD (st.routes.length - 1) []
      = if ri = st.routes.length - 1 then nr
        else st.routes.getD (st.routes.length - 1) [] := by
    by_cases hril : ri = st.routes.length - 1
    · rw [if_pos hril, ← hril, getD_set_self _ _ _ _ hri]
    · rw [if_neg hril, getD_set_ne _ _ _ _ _ (fun h => hril h)]
  by_cases hcase : rj = st.routes.length - 1
  · rw [if_neg (by simpa using hcase)]
    show (nr.foldl _ st.route_of_customer) c = _
    rw [foldl_update_eq]
    by_cases hdep : c = cfg.depot
    · rw [if_neg (fun h : c ≠ cfg.depot ∧ c ∈ nr => h.1 hdep), if_pos hdep]
    · rw [if_neg hdep,
        if_neg (show ¬(rj ≠ st.routes.length - 1 ∧
          c ∈ (if ri = st.routes.length - 1 then nr
               else st.routes.getD (st.routes.length - 1) [])) from fun h => h.1 hcase)]
      by_cases hcnr : c ∈ nr
      · rw [if_pos (show c ≠ cfg.depot ∧ c ∈ nr from ⟨hdep, hcnr⟩), if_pos hcnr]
      · rw [if_neg (fun h : c ≠ cfg.depot ∧ c ∈ nr => hcnr h.2), if_neg hcnr]
  · rw [if_pos (by simpa using hcase)]
    show (((st.routes.set ri nr).getD (st.routes.length - 1) []).foldl _
        (nr.foldl _ st.route_of_customer)) c = _
    rw [foldl_update_eq, foldl_update_eq, hmoved]
    by_cases hdep : c = cfg.depot
    · rw [if_pos hdep,
        if_neg (fun h : c ≠ cfg.depot ∧
          c ∈ (if ri = st.routes.length - 1 then nr
               else st.routes.getD (st.routes.length - 1) []) => h.1 hdep),
        if_neg (fun h : c ≠ cfg.depot ∧ c ∈ nr => h.1 hdep)]
    · rw [if_neg hdep]
      by_cases hcm : c ∈ (if ri = st.routes.length - 1 then nr
          else st.routes.getD (st.routes.length - 1) [])
      · rw [if_pos (show c ≠ cfg.depot ∧ _ from ⟨hdep, hcm⟩), if_pos ⟨hcase, hcm⟩]
      · rw [if_neg (fun h : c ≠ cfg.depot ∧ _ => hcm h.2),
          if_neg (fun h : rj ≠ st.routes.length - 1 ∧ _ => hcm h.2)]
        by_cases hcnr : c ∈ nr
        · rw [if_pos (show c ≠ cfg.depot ∧ c ∈ nr from ⟨hdep, hcnr⟩), if_pos hcnr]
        · rw [if_neg (fun h : c ≠ cfg.depot ∧ c ∈ nr => hcnr h.2), if_neg hcnr]

/-! ## Unfolding `can_merge` and the splice cases of `merge` -/

theorem can_merge_eq_true_iff (cfg : CWConfig) (st : CWState) (i j : Nat) :
    can_merge cfg st i j = true ↔
      st.route_of_customer i ≠ st.route_of_customer j ∧
      (isFirstCustomer st i = true ∨ isLastCustomer st i = true) ∧
      (isFirstCustomer st j = true ∨ isLastCustomer st j = true) ∧
      st.route_loads.getD (st.route_of_customer i) 0 +
        st.route_loads.getD (st.route_of_customer j) 0 ≤ cfg.Q := by
  unfold can_merge
  split_ifs with h1 h2 h3 h4
  · simp [h1]
  · have h2' : isFirstCustomer st i = false ∧ isLastCustomer st i = false := by
      simpa using h2
    simp [h2'.1, h2'.2]
  · have h3' : isFirstCustomer st j = false ∧ isLastCustomer st j = false := by
      simpa using h3
    simp [h3'.1, h3'.2]
  · constructor
    · intro h
      exact absurd h (by simp)
    · rintro ⟨-, -, -, hle⟩
      exact absurd hle (not_le.mpr h4)
  · have h2' : isFirstCustomer st i = true ∨ isLastCustomer st i = true := by
      cases hc1 : isFirstCustomer st i <;> cases hc2 : isLastCustomer st i <;>
        simp_all
    have h3' : isFirstCustomer st j = true ∨ isLastCustomer st j = true := by
      cases hc1 : isFirstCustomer st j <;> cases hc2 : isLastCustomer st j <;>
        simp_all
    exact iff_of_true rfl ⟨h1, h2', h3', not_lt.mp h4⟩

theorem dropLast_anchored (dep : Nat) (cs : List Nat) :
    (dep :: cs ++ [dep]).dropLast = dep :: cs := by
  show ((dep :: cs) ++ [dep]).dropLast = dep :: cs
  exact List.dropLast_concat

theorem tail_anchored (dep : Nat) (cs : List Nat) :
    (dep :: cs ++ [dep]).tail = cs ++ [dep] := rfl

theorem reverse_anchored (dep : Nat) (cs : List Nat) :
    (dep :: cs ++ [dep]).reverse = dep :: cs.reverse ++ [dep] := by
  simp

theorem mem_anchored_iff {dep c : Nat} {cs : List Nat} (hc : c ≠ dep) :
    c ∈ dep :: cs ++ [dep] ↔ c ∈ cs := by
  simp [hc]

theorem mem_form_iff_interior {dep : Nat} {r : List Nat} {c : Nat}
    (hf : IsRouteForm dep r) (hc : c ≠ dep) : c ∈ r ↔ c ∈ interiorOf r := by
  conv_lhs => rw [hf.1]
  exact mem_anchored_iff hc

theorem getD_eq_getElem_of_lt {α : Type} (l : List α) (m : Nat) (d : α)
    (h : m < l.length) : l.getD m d = l[m] := by
  rw [List.getD_eq_getElem?_getD, List.getElem?_eq_getElem h]
  rfl

/-- Under `can_merge`, `merge` commits one of the four splices: the new
route is depot-anchored around an interior `ci` which is (up to the
documented reversals) the concatenation of the two old interiors. -/
theorem merge_cases (cfg : CWConfig) (st : CWState) (i j : Nat)
    (hInv : Inv cfg st) (hi : i ∈ customersList cfg.n cfg.depot)
    (hj : j ∈ customersList cfg.n cfg.depot)
    (hcm : can_merge cfg st i j = true) :
    ∃ ci : List Nat,
      merge cfg st i j
        = mergeCommit cfg st (st.route_of_customer i) (st.route_of_customer j)
            (cfg.depot :: ci ++ [cfg.depot]) ∧
      ci.Perm (interiorOf (st.routes.getD (st.route_of_customer i) [])
              ++ interiorOf (st.routes.getD (st.route_of_customer j) [])) ∧
      ((isLastCustomer st i = true ∧ isFirstCustomer st j = true ∧
          ci = interiorOf (st.routes.getD (st.route_of_customer i) [])
              ++ interiorOf (st.routes.getD (st.route_of_customer j) [])) ∨
       (isFirstCustomer st i = true ∧ isLastCustomer st j = true ∧
          ci = interiorOf (st.routes.getD (st.route_of_customer j) [])
              ++ interiorOf (st.routes.getD (st.route_of_customer i) [])) ∨
       (isFirstCustomer st i = true ∧ isFirstCustomer st j = true ∧
          ci = (interiorOf (st.routes.getD (st.route_of_customer i) [])).reverse
              ++ interiorOf (st.routes.getD (st.route_of_customer j) [])) ∨
       (isLastCustomer st i = true ∧ isLastCustomer st j = true ∧
          ci = interiorOf (st.routes.getD (st.route_of_customer i) [])
              ++ (interiorOf (st.routes.getD (st.route_of_customer j) [])).reverse)) := by
  obtain ⟨hne, hend_i, hend_j, hcap⟩ := (can_merge_eq_true_iff cfg st i j).mp hcm
  have hriL : st.route_of_customer i < st.routes.length := (hInv.hroc i hi).1
  have hrjL : st.route_of_customer j < st.routes.length := (hInv.hroc j hj).1
  have hfA := hInv.hform _ (getD_mem_of_lt _ _ [] hriL)
  have hfB := hInv.hform _ (getD_mem_of_lt _ _ [] hrjL)
  set A := st.routes.getD (st.route_of_customer i) [] with hA
  set B := st.routes.getD (st.route_of_customer j) [] with hB
  by_cases b1 : (isLastCustomer st i && isFirstCustomer st j) = true
  · obtain ⟨e1, e2⟩ := Bool.and_eq_true_iff.mp b1
    refine ⟨interiorOf A ++ interiorOf B, ?_, List.Perm.refl _,
      Or.inl ⟨e1, e2, rfl⟩⟩
    show (if (isLastCustomer st i && isFirstCustomer st j) = true then
        mergeCommit cfg st _ _ (A.dropLast ++ B.tail) else _) = _
    rw [if_pos b1]
    congr 1
    conv_lhs => rw [hfA.1, hfB.1, dropLast_anchored, tail_anchored]
    simp
  · by_cases b2 : (isFirstCustomer st i && isLastCustomer st j) = true
    · obtain ⟨e1, e2⟩ := Bool.and_eq_true_iff.mp b2
      refine ⟨interiorOf B ++ interiorOf A, ?_, List.perm_append_comm,
        Or.inr (Or.inl ⟨e1, e2, rfl⟩)⟩
      show (if (isLastCustomer st i && isFirstCustomer st j) = true then _
          else if (isFirstCustomer st i && isLastCustomer st j) = true then
            mergeCommit cfg st _ _ (B.dropLast ++ A.tail) else _) = _
      rw [if_neg b1, if_pos b2]
      congr 1
      conv_lhs => rw [hfB.1, hfA.1, dropLast_anchored, tail_anchored]
      simp
    · by_cases b3 : (isFirstCustomer st i && isFirstCustomer st j) = true
      · obtain ⟨e1, e2⟩ := Bool.and_eq_true_iff.mp b3
        refine ⟨(interiorOf A).reverse ++ interiorOf B, ?_,
          List.Perm.append ((interiorOf A).reverse_perm) (List.Perm.refl _),
          Or.inr (Or.inr (Or.inl ⟨e1, e2, rfl⟩))⟩
        show (if (isLastCustomer st i && isFirstCustomer st j) = true then _
            else if (isFirstCustomer st i && isLastCustomer st j) = true then _
            else if (isFirstCustomer st i && isFirstCustomer st j) = true then
              mergeCommit cfg st _ _ (A.reverse.dropLast ++ B.tail) else _) = _
        rw [if_neg b1, if_neg b2, if_pos b3]
        congr 1
        conv_lhs => rw [hfA.1, hfB.1, reverse_anchored, dropLast_anchored,
          tail_anchored]
        simp
      · by_cases b4 : (isLastCustomer st i && isLastCustomer st j) = true
        · obtain ⟨e1, e2⟩ := Bool.and_eq_true_iff.mp b4
          refine ⟨interiorOf A ++ (interiorOf B).reverse, ?_,
            List.Perm.append (List.Perm.refl _) ((interiorOf B).reverse_perm),
            Or.inr (Or.inr (Or.inr ⟨e1, e2, rfl⟩))⟩
          show (if (isLastCustomer st i && isFirstCustomer st j) = true then _
              else if (isFirstCustomer st i && isLastCustomer st j) = true then _
              else if (isFirstCustomer st i && isFirstCustomer st j) = true then _
              else if (isLastCustomer st i && isLastCustomer st j) = true then
                mergeCommit cfg st _ _ (A.dropLast ++ B.reverse.tail) else _) = _
          rw [if_neg b1, if_neg b2, if_neg b3, if_pos b4]
          congr 1
          conv_lhs => rw [hfA.1, hfB.1, reverse_anchored, dropLast_anchored,
            tail_anchored]
          simp
        · exfalso
          simp only [Bool.and_eq_true_iff, not_and_or, Bool.not_eq_true] at b1 b2 b3 b4
          rcases hend_i with hFi | hLi <;> rcases hend_j with hFj | hLj <;>
            simp_all

/-! ## Preservation of the invariant by `mergeCommit` -/

theorem inv_mergeCommit (cfg : CWConfig) (st : CWState) (ri rj : Nat) (ci : List Nat)
    (hInv : Inv cfg st) (hri : ri < st.routes.length) (hrj : rj < st.routes.length)
    (hne : ri ≠ rj)
    (hperm : ci.Perm (interiorOf (st.routes.getD ri [])
            ++ interiorOf (st.routes.getD rj []))) :
    Inv cfg (mergeCommit cfg st ri rj (cfg.depot :: ci ++ [cfg.depot])) := by
  have hlast : st.routes.length - 1 < st.routes.length := by omega
  have hfA := hInv.hform _ (getD_mem_of_lt st.routes ri [] hri)
  have hfB := hInv.hform _ (getD_mem_of_lt st.routes rj [] hrj)
  have hfM := hInv.hform _ (getD_mem_of_lt st.routes (st.routes.length - 1) [] hlast)
  have hnodA := hInv.hnodup _ (getD_mem_of_lt st.routes ri [] hri)
  have hnodB := hInv.hnodup _ (getD_mem_of_lt st.routes rj [] hrj)
  have hnodM := hInv.hnodup _ (getD_mem_of_lt st.routes (st.routes.length - 1) [] hlast)
  have hmemA := hInv.hmem ri hri
  have hmemB := hInv.hmem rj hrj
  have hmemM := hInv.hmem (st.routes.length - 1) hlast
  have hdisj : (interiorOf (st.routes.getD ri [])).Disjoint
      (interiorOf (st.routes.getD rj [])) := by
    intro c hcA hcB
    exact hne (((hmemA c hcA).2.symm).trans ((hmemB c hcB).2))
  have hci_mem : ∀ c, c ∈ ci ↔ c ∈ interiorOf (st.routes.getD ri [])
      ∨ c ∈ interiorOf (st.routes.getD rj []) := by
    intro c
    rw [hperm.mem_iff, List.mem_append]
  have hdep_ci : cfg.depot ∉ ci := by
    intro h
    rcases (hci_mem _).mp h with h | h
    · exact hfA.2.2 h
    · exact hfB.2.2 h
  have hci_ne : ci ≠ [] := by
    intro h
    have hlen := hperm.length_eq
    rw [h, List.length_nil, List.length_append] at hlen
    have hAnil : interiorOf (st.routes.getD ri []) = [] :=
      List.length_eq_zero.mp (by omega)
    exact hfA.2.1 hAnil
  have hnod_ci : ci.Nodup :=
    hperm.nodup_iff.mpr (List.nodup_append.mpr ⟨hnodA, hnodB, hdisj⟩)
  have hform_nr : IsRouteForm cfg.depot (cfg.depot :: ci ++ [cfg.depot]) :=
    isRouteForm_intro _ _ hci_ne hdep_ci
  have hint_nr : interiorOf (cfg.depot :: ci ++ [cfg.depot]) = ci :=
    interiorOf_anchored _ _
  have hmem_nr : ∀ c, c ≠ cfg.depot →
      (c ∈ (cfg.depot :: ci ++ [cfg.depot]) ↔ c ∈ ci) :=
    fun c hc => mem_anchored_iff hc
  have hcust_ci : ∀ c ∈ ci, c ∈ customersList cfg.n cfg.depot := by
    intro c hc
    rcases (hci_mem _).mp hc with h | h
    · exact (hmemA c h).1
    · exact (hmemB c h).1
  have hlenL : st.route_loads.length = st.routes.length := hInv.hlen
  have hRlen := mergeCommit_routes_length cfg st ri rj (cfg.depot :: ci ++ [cfg.depot])
  have hLlen := mergeCommit_loads_length cfg st ri rj (cfg.depot :: ci ++ [cfg.depot])
  have hget := mergeCommit_routes_getD cfg st ri rj (cfg.depot :: ci ++ [cfg.depot])
    hri hrj hne
  have hgetL := mergeCommit_loads_getD cfg st ri rj (cfg.depot :: ci ++ [cfg.depot])
    hlenL hri hrj hne
  have hroc2 := mergeCommit_roc cfg st ri rj (cfg.depot :: ci ++ [cfg.depot]) hri
  constructor
  · -- lengths agree
    rw [hRlen, hLlen, hlenL]
  · -- every stored route is depot-anchored
    intro r hr
    obtain ⟨m, hm, hgetr⟩ := List.mem_iff_getElem.mp hr
    have hmlt : m < st.routes.length - 1 := by rw [hRlen] at hm; exact hm
    have heq : (mergeCommit cfg st ri rj (cfg.depot :: ci ++ [cfg.depot])).routes.getD m []
        = r := by
      rw [getD_eq_getElem_of_lt _ _ _ hm]
      exact hgetr
    rw [hget m hmlt] at heq
    by_cases hmri : m = ri
    · rw [if_pos hmri] at heq
      exact heq ▸ hform_nr
    · rw [if_neg hmri] at heq
      by_cases hmrj : m = rj
      · rw [if_pos hmrj] at heq
        by_cases hril : ri = st.routes.length - 1
        · rw [if_pos hril] at heq
          exact heq ▸ hform_nr
        · rw [if_neg hril] at heq
          exact heq ▸ hfM
      · rw [if_neg hmrj] at heq
        exact heq ▸ hInv.hform _ (getD_mem_of_lt st.routes m [] (by omega))
  · -- every stored route has a duplicate-free interior
    intro r hr
    obtain ⟨m, hm, hgetr⟩ := List.mem_iff_getElem.mp hr
    have hmlt : m < st.routes.length - 1 := by rw [hRlen] at hm; exact hm
    have heq : (mergeCommit cfg st ri rj (cfg.depot :: ci ++ [cfg.depot])).routes.getD m []
        = r := by
      rw [getD_eq_getElem_of_lt _ _ _ hm]
      exact hgetr
    rw [hget m hmlt] at heq
    by_cases hmri : m = ri
    · rw [if_pos hmri] at heq
      rw [← heq, hint_nr]
      exact hnod_ci
    · rw [if_neg hmri] at heq
      by_cases hmrj : m = rj
      · rw [if_pos hmrj] at heq
        by_cases hril : ri = st.routes.length - 1
        · rw [if_pos hril] at heq
          rw [← heq, hint_nr]
          exact hnod_ci
        · rw [if_neg hril] at heq
          rw [← heq]
          exact hnodM
      · rw [if_neg hmrj] at heq
        rw [← heq]
        exact hInv.hnodup _ (getD_mem_of_lt st.routes m [] (by omega))
  · -- every customer points at an in-range slot containing it
    intro c hc
    have hcd : c ≠ cfg.depot := ne_depot_of_mem_customersList hc
    obtain ⟨hkL, hkmem⟩ := hInv.hroc c hc
    rw [hroc2 c, if_neg hcd]
    by_cases hp : rj ≠ st.routes.length - 1 ∧
        c ∈ (if ri = st.routes.length - 1 then (cfg.depot :: ci ++ [cfg.depot])
             else st.routes.getD (st.routes.length - 1) [])
    · rw [if_pos hp]
      obtain ⟨hrjl, hcmv⟩ := hp
      have hrjlt : rj < st.routes.length - 1 := by omega
      refine ⟨by rw [hRlen]; exact hrjlt, ?_⟩
      rw [hget rj hrjlt, if_neg (fun h => hne h.symm), if_pos rfl]
      by_cases hril : ri = st.routes.length - 1
      · rw [if_pos hril] at hcmv ⊢
        rw [hint_nr]
        exact (hmem_nr c hcd).mp hcmv
      · rw [if_neg hril] at hcmv ⊢
        exact (mem_form_iff_interior hfM hcd).mp hcmv
    · rw [if_neg hp]
      by_cases hcnr : c ∈ (cfg.depot :: ci ++ [cfg.depot])
      · rw [if_pos hcnr]
        have hcci : c ∈ ci := (hmem_nr c hcd).mp hcnr
        have hrilt : ri < st.routes.length - 1 := by
          by_cases h1 : rj = st.routes.length - 1
          · have : ri ≠ st.routes.length - 1 := fun h2 => hne (h2.trans h1.symm)
            omega
          · have : ri ≠ st.routes.length - 1 := by
              intro h2
              exact hp ⟨h1, by rw [if_pos h2]; exact hcnr⟩
            omega
        refine ⟨by rw [hRlen]; exact hrilt, ?_⟩
        rw [hget ri hrilt, if_pos rfl, hint_nr]
        exact hcci
      · rw [if_neg hcnr]
        have hcci : c ∉ ci := fun h => hcnr ((hmem_nr c hcd).mpr h)
        have hkri : st.route_of_customer c ≠ ri := by
          intro h
          exact hcci ((hci_mem c).mpr (Or.inl (h ▸ hkmem)))
        have hkrj : st.route_of_customer c ≠ rj := by
          intro h
          exact hcci ((hci_mem c).mpr (Or.inr (h ▸ hkmem)))
        have hkl : st.route_of_customer c ≠ st.routes.length - 1 := by
          intro h
          by_cases h1 : rj = st.routes.length - 1
          · exact hkrj (h.trans h1.symm)
          · apply hp
            refine ⟨h1, ?_⟩
            have hril2 : ri ≠ st.routes.length - 1 := fun h2 => hkri (h.trans h2.symm)
            rw [if_neg hril2]
            exact (mem_form_iff_interior hfM hcd).mpr (h ▸ hkmem)
        have hklt : st.route_of_customer c < st.routes.length - 1 := by omega
        refine ⟨by rw [hRlen]; exact hklt, ?_⟩
        rw [hget _ hklt, if_neg hkri, if_neg hkrj]
        exact hkmem
  · -- every interior node of every slot is a customer pointing back
    intro m hm c hcmem
    have hmlt : m < st.routes.length - 1 := by rw [hRlen] at hm; exact hm
    rw [hget m hmlt] at hcmem
    by_cases hmri : m = ri
    · rw [if_pos hmri] at hcmem
      rw [hint_nr] at hcmem
      have hcd : c ≠ cfg.depot := fun h => hdep_ci (h ▸ hcmem)
      refine ⟨hcust_ci c hcmem, ?_⟩
      rw [hroc2 c, if_neg hcd]
      by_cases h1 : rj = st.routes.length - 1
      · rw [if_neg (fun hp => hp.1 h1), if_pos ((hmem_nr c hcd).mpr hcmem), hmri]
      · have hril : ri ≠ st.routes.length - 1 := by omega
        have hcM : c ∉ st.routes.getD (st.routes.length - 1) [] := by
          intro hcM
          have hrocM := (hmemM c ((mem_form_iff_interior hfM hcd).mp hcM)).2
          rcases (hci_mem c).mp hcmem with h | h
          · exact hril (((hmemA c h).2.symm.trans hrocM))
          · exact h1 (((hmemB c h).2.symm.trans hrocM))
        rw [if_neg (fun hp => hcM (by have h2 := hp.2; rwa [if_neg hril] at h2)),
          if_pos ((hmem_nr c hcd).mpr hcmem), hmri]
    · rw [if_neg hmri] at hcmem
      by_cases hmrj : m = rj
      · rw [if_pos hmrj] at hcmem
        by_cases hril : ri = st.routes.length - 1
        · rw [if_pos hril] at hcmem
          rw [hint_nr] at hcmem
          have hcd : c ≠ cfg.depot := fun h => hdep_ci (h ▸ hcmem)
          refine ⟨hcust_ci c hcmem, ?_⟩
          rw [hroc2 c, if_neg hcd]
          have hrjl : rj ≠ st.routes.length - 1 := by omega
          rw [if_pos ⟨hrjl, by rw [if_pos hril]; exact (hmem_nr c hcd).mpr hcmem⟩,
            hmrj]
        · rw [if_neg hril] at hcmem
          have hcd : c ≠ cfg.depot := by
            intro h
            exact hfM.2.2 (h ▸ hcmem)
          refine ⟨(hmemM c hcmem).1, ?_⟩
          rw [hroc2 c, if_neg hcd]
          have hrjl : rj ≠ st.routes.length - 1 := by omega
          rw [if_pos ⟨hrjl,
            by rw [if_neg hril]; exact (mem_form_iff_interior hfM hcd).mpr hcmem⟩,
            hmrj]
      · rw [if_neg hmrj] at hcmem
        have hold := hInv.hmem m (by omega) c hcmem
        have hcd : c ≠ cfg.depot := ne_depot_of_mem_customersList hold.1
        refine ⟨hold.1, ?_⟩
        rw [hroc2 c, if_neg hcd]
        have hcci : c ∉ ci := by
          intro h
          rcases (hci_mem c).mp h with h' | h'
          · exact hmri (hold.2.symm.trans (hmemA c h').2)
          · exact hmrj (hold.2.symm.trans (hmemB c h').2)
        have hnp : ¬(rj ≠ st.routes.length - 1 ∧
            c ∈ (if ri = st.routes.length - 1 then (cfg.depot :: ci ++ [cfg.depot])
                 else st.routes.getD (st.routes.length - 1) [])) := by
          rintro ⟨hrjl, hcmv⟩
          by_cases hril : ri = st.routes.length - 1
          · rw [if_pos hril] at hcmv
            exact hcci ((hmem_nr c hcd).mp hcmv)
          · rw [if_neg hril] at hcmv
            have hrocM := (hmemM c ((mem_form_iff_interior hfM hcd).mp hcmv)).2
            have : m = st.routes.length - 1 := hold.2.symm.trans hrocM
            omega
        rw [if_neg hnp, if_neg (fun h => hcci ((hmem_nr c hcd).mp h))]
        exact hold.2
  · -- every slot's load is the sum of its customers' demands
    intro m hm
    have hmlt : m < st.routes.length - 1 := by rw [hRlen] at hm; exact hm
    rw [hgetL m hmlt, hget m hmlt]
    have hsum : st.route_loads.getD ri 0 + st.route_loads.getD rj 0
        = routeLoad cfg (cfg.depot :: ci ++ [cfg.depot]) := by
      rw [hInv.hload ri hri, hInv.hload rj hrj]
      unfold routeLoad
      rw [hint_nr, (hperm.map cfg.returns).sum_eq, List.map_append, List.sum_append]
    by_cases hmri : m = ri
    · rw [if_pos hmri, if_pos hmri]
      exact hsum
    · rw [if_neg hmri, if_neg hmri]
      by_cases hmrj : m = rj
      · rw [if_pos hmrj, if_pos hmrj]
        by_cases hril : ri = st.routes.length - 1
        · rw [if_pos hril, if_pos hril]
          exact hsum
        · rw [if_neg hril, if_neg hril]
          exact hInv.hload (st.routes.length - 1) hlast
      · rw [if_neg hmrj, if_neg hmrj]
        exact hInv.hload m (by omega)

theorem inv_merge (cfg : CWConfig) (st : CWState) (i j : Nat) (hInv : Inv cfg st)
    (hi : i ∈ customersList cfg.n cfg.depot) (hj : j ∈ customersList cfg.n cfg.depot)
    (hcm : can_merge cfg st i j = true) : Inv cfg (merge cfg st i j) := by
  obtain ⟨ci, heq, hperm, -⟩ := merge_cases cfg st i j hInv hi hj hcm
  rw [heq]
  have hne := ((can_merge_eq_true_iff cfg st i j).mp hcm).1
  exact inv_mergeCommit cfg st _ _ ci hInv (hInv.hroc i hi).1 (hInv.hroc j hj).1 hne hperm

/-! ## Membership in the savings list -/

theorem mem_rawSavings (cfg : CWConfig) (t : ℚ × Nat × Nat) :
    t ∈ rawSavings cfg ↔
      t.2.1 ∈ customersList cfg.n cfg.depot ∧
      t.2.2 ∈ customersList cfg.n cfg.depot ∧ t.2.1 < t.2.2 ∧
      t.1 = dget cfg.d cfg.depot t.2.1 + dget cfg.d cfg.depot t.2.2
            - dget cfg.d t.2.1 t.2.2 := by
  obtain ⟨s, i, j⟩ := t
  unfold rawSavings
  rw [List.mem_flatMap]
  constructor
  · rintro ⟨i', hi', ht⟩
    rw [List.mem_map] at ht
    obtain ⟨j', hj', hteq⟩ := ht
    obtain ⟨rfl, rfl, rfl⟩ : s = _ ∧ i = i' ∧ j = j' := by
      refine ⟨congrArg Prod.fst hteq.symm, ?_, ?_⟩
      · have := congrArg (fun p => p.2.1) hteq
        exact this.symm
      · have := congrArg (fun p => p.2.2) hteq
        exact this.symm
    rw [List.mem_filter] at hj'
    exact ⟨hi', hj'.1, by simpa using hj'.2, rfl⟩
  · rintro ⟨h1, h2, h3, h4⟩
    refine ⟨i, h1, ?_⟩
    rw [List.mem_map]
    refine ⟨j, List.mem_filter.mpr ⟨h2, by simpa using h3⟩, ?_⟩
    simp only at h4 ⊢
    rw [h4]

theorem mem_compute_savings (cfg : CWConfig) (t : ℚ × Nat × Nat) :
    t ∈ compute_savings cfg ↔ t ∈ rawSavings cfg :=
  (List.perm_insertionSort _ _).mem_iff

theorem inv_step (cfg : CWConfig) (st : CWState) (t : ℚ × Nat × Nat)
    (hInv : Inv cfg st) (h1 : t.2.1 ∈ customersList cfg.n cfg.depot)
    (h2 : t.2.2 ∈ customersList cfg.n cfg.depot) : Inv cfg (step cfg st t) := by
  unfold step
  split_ifs with h
  · exact inv_merge cfg st _ _ hInv h1 h2 h
  · exact hInv

theorem inv_applyMerges (cfg : CWConfig) (ts : List (ℚ × Nat × Nat)) (st : CWState)
    (hInv : Inv cfg st)
    (hts : ∀ t ∈ ts, t.2.1 ∈ customersList cfg.n cfg.depot ∧
      t.2.2 ∈ customersList cfg.n cfg.depot) :
    Inv cfg (applyMerges cfg ts st) := by
  induction ts generalizing st with
  | nil => exact hInv
  | cons a ts ih =>
    exact ih _
      (inv_step cfg st a hInv (hts a (List.mem_cons_self a ts)).1
        (hts a (List.mem_cons_self a ts)).2)
      (fun t ht => hts t (List.mem_cons_of_mem a ht))

/-- The invariant holds after processing any leading part of the sorted
savings list, starting from the initial one-route-per-customer state. -/
theorem inv_reachable (cfg : CWConfig) (pre suf : List (ℚ × Nat × Nat))
    (hsplit : compute_savings cfg = pre ++ suf) :
    Inv cfg (applyMerges cfg pre (init_routes cfg)) := by
  refine inv_applyMerges cfg pre _ (inv_init cfg) ?_
  intro t ht
  have : t ∈ compute_savings cfg := by
    rw [hsplit]
    exact List.mem_append_left _ ht
  have hm := (mem_rawSavings cfg t).mp ((mem_compute_savings cfg t).mp this)
  exact ⟨hm.1, hm.2.1⟩

/-! ## Counting occurrences across all routes -/

theorem sum_eq_one_of_single {l : List Nat} {k : Nat} (hk : k < l.length)
    (h1 : l[k] = 1) (h0 : ∀ m, (hm : m < l.length) → m ≠ k → l[m] = 0) :
    l.sum = 1 := by
  induction l generalizing k with
  | nil => exact absurd hk (by simp)
  | cons a l ih =>
    cases k with
    | zero =>
      have ha : a = 1 := h1
      have hrest : l.sum = 0 := by
        refine List.sum_eq_zero ?_
        intro x hx
        obtain ⟨m, hm, rfl⟩ := List.mem_iff_getElem.mp hx
        exact h0 (m + 1) (by simpa using Nat.succ_lt_succ hm) (by omega)
      simp [ha, hrest]
    | succ k' =>
      have ha : a = 0 := h0 0 (by simp) (by omega)
      have := ih (by simpa using Nat.lt_of_succ_lt_succ hk) h1
        (fun m hm hmk => h0 (m + 1) (by simpa using Nat.succ_lt_succ hm) (by omega))
      simp [ha, this]

theorem count_eq_one_of_nodup_mem {l : List Nat} {c : Nat} (hnod : l.Nodup)
    (hmem : c ∈ l) : l.count c = 1 := by
  have h1 : 1 ≤ l.count c := List.one_le_count_iff.mpr hmem
  have h2 : l.count c ≤ 1 := List.nodup_iff_count_le_one.mp hnod c
  omega

/-- Under the invariant, each customer occurs exactly once across the
concatenation of all route interiors. -/
theorem count_flatten_eq_one (cfg : CWConfig) (st : CWState) (hInv : Inv cfg st)
    (c : Nat) (hc : c ∈ customersList cfg.n cfg.depot) :
    ((st.routes.map interiorOf).flatten.count c) = 1 := by
  rw [List.count_flatten, List.map_map]
  obtain ⟨hkL, hkmem⟩ := hInv.hroc c hc
  refine sum_eq_one_of_single (k := st.route_of_customer c) (by simpa using hkL) ?_ ?_
  · rw [List.getElem_map]
    refine count_eq_one_of_nodup_mem ?_ ?_
    · refine hInv.hnodup _ (List.getElem_mem ?_)
      exact hkL
    · rw [← getD_eq_getElem_of_lt st.routes _ [] hkL]
      exact hkmem
  · intro m hm hmk
    rw [List.getElem_map]
    rw [List.length_map] at hm
    refine List.count_eq_zero.mpr ?_
    intro hcmem
    rw [← getD_eq_getElem_of_lt st.routes _ [] hm] at hcmem
    exact hmk (hInv.hmem m hm c hcmem).2.symm

/-! ## List surgery: the swap-and-pop slot removal is a positional erase -/

theorem set_perm_cons_eraseIdx {α : Type} (l : List α) (k : Nat) (a : α)
    (hk : k < l.length) : (l.set k a).Perm (a :: l.eraseIdx k) := by
  rw [List.set_eq_take_cons_drop a hk, List.eraseIdx_eq_take_drop_succ]
  exact List.perm_middle

theorem eraseIdx_last {α : Type} (l : List α) :
    l.eraseIdx (l.length - 1) = l.dropLast := by
  rw [List.eraseIdx_eq_take_drop_succ, List.dropLast_eq_take]
  cases l with
  | nil => rfl
  | cons a l =>
    have : (a :: l).length - 1 + 1 = (a :: l).length := by simp
    rw [this, List.drop_length, List.append_nil]

theorem dropLast_set_perm_eraseIdx {α : Type} (l : List α) (k : Nat) (d : α)
    (hk : k < l.length - 1) :
    ((l.set k (l.getD (l.length - 1) d)).dropLast).Perm (l.eraseIdx k) := by
  rcases List.eq_nil_or_concat l with rfl | ⟨B, x, rfl⟩
  · simp at hk
  · simp only [List.concat_eq_append] at hk ⊢
    have hB : k < B.length := by
      rw [List.length_append, List.length_singleton] at hk
      omega
    have hxv : (B ++ [x]).getD ((B ++ [x]).length - 1) d = x := by
      rw [show (B ++ [x]).length - 1 = B.length by simp, getD_append_right_len]
      rfl
    rw [hxv, List.set_append_left _ _ hB, List.dropLast_concat,
      List.eraseIdx_append_of_lt_length hB]
    exact (set_perm_cons_eraseIdx B k x hB).trans
      (List.perm_append_singleton x (B.eraseIdx k)).symm

theorem mergeCommit_routes_perm (cfg : CWConfig) (st : CWState) (ri rj : Nat)
    (nr : List Nat) (hri : ri < st.routes.length) (hrj : rj < st.routes.length)
    (hne : ri ≠ rj) :
    (mergeCommit cfg st ri rj nr).routes.Perm ((st.routes.set ri nr).eraseIdx rj) := by
  dsimp only [mergeCommit]
  rw [List.length_set]
  by_cases hcase : rj = st.routes.length - 1
  · rw [if_neg (by simpa using hcase)]
    show ((st.routes.set ri nr).dropLast).Perm _
    have : (st.routes.set ri nr).eraseIdx rj
        = (st.routes.set ri nr).dropLast := by
      rw [hcase, show st.routes.length - 1 = (st.routes.set ri nr).length - 1 by
        rw [List.length_set]]
      exact eraseIdx_last _
    rw [this]
  · rw [if_pos (by simpa using hcase)]
    show (((st.routes.set ri nr).set rj
        ((st.routes.set ri nr).getD (st.routes.length - 1) [])).dropLast).Perm _
    have hlen1 : (st.routes.set ri nr).length = st.routes.length := List.length_set _ _ _
    have h1 : (st.routes.set ri nr).getD (st.routes.length - 1) []
        = (st.routes.set ri nr).getD ((st.routes.set ri nr).length - 1) [] := by
      rw [hlen1]
    rw [h1]
    exact dropLast_set_perm_eraseIdx _ rj [] (by rw [hlen1]; omega)

theorem mergeCommit_loads_perm (cfg : CWConfig) (st : CWState) (ri rj : Nat)
    (nr : List Nat) (hlen : st.route_loads.length = st.routes.length)
    (hri : ri < st.routes.length) (hrj : rj < st.routes.length)
    (hne : ri ≠ rj) :
    (mergeCommit cfg st ri rj nr).route_loads.Perm
      ((st.route_loads.set ri
        (st.route_loads.getD ri 0 + st.route_loads.getD rj 0)).eraseIdx rj) := by
  have hlen1 : (st.route_loads.set ri
      (st.route_loads.getD ri 0 + st.route_loads.getD rj 0)).length
      = st.routes.length := by rw [List.length_set, hlen]
  dsimp only [mergeCommit]
  rw [List.length_set]
  by_cases hcase : rj = st.routes.length - 1
  · rw [if_neg (by simpa using hcase)]
    show ((st.route_loads.set ri
        (st.route_loads.getD ri 0 + st.route_loads.getD rj 0)).dropLast).Perm _
    have hrj2 : rj = (st.route_loads.set ri
        (st.route_loads.getD ri 0 + st.route_loads.getD rj 0)).length - 1 := by
      rw [hlen1]
      exact hcase
    have h2 := eraseIdx_last (st.route_loads.set ri
        (st.route_loads.getD ri 0 + st.route_loads.getD rj 0))
    rw [← hrj2] at h2
    rw [h2]
  · rw [if_pos (by simpa using hcase)]
    show (((st.route_loads.set ri
        (st.route_loads.getD ri 0 + st.route_loads.getD rj 0)).set rj
        ((st.route_loads.set ri
          (st.route_loads.getD ri 0 + st.route_loads.getD rj 0)).getD
          (st.routes.length - 1) 0)).dropLast).Perm _
    have h1 : (st.route_loads.set ri
          (st.route_loads.getD ri 0 + st.route_loads.getD rj 0)).getD
          (st.routes.length - 1) 0
        = (st.route_loads.set ri
          (st.route_loads.getD ri 0 + st.route_loads.getD rj 0)).getD
          ((st.route_loads.set ri
            (st.route_loads.getD ri 0 + st.route_loads.getD rj 0)).length - 1) 0 := by
      rw [hlen1]
    rw [h1]
    exact dropLast_set_perm_eraseIdx _ rj 0 (by rw [hlen1]; omega)

/-! ## Claim theorems -/

/-- C1: Partition invariant.  Starting from `init_routes` (one route per
customer) and after any leading part of the merges `solve` performs —
including merges where the discarded slot is filled by swapping in the
last route and re-pointing its customers — every customer is sent by
`route_of_customer` to an in-range slot whose route interior contains
it, and it occurs exactly once across the concatenation of all route
interiors; every interior node of every route is a customer; and in the
final result of `solve` the union of the routes' customer sets equals
the input customer set. -/
theorem C1_partition_invariant (cfg : CWConfig) (pre suf : List (ℚ × Nat × Nat))
    (hsplit : compute_savings cfg = pre ++ suf) :
    (∀ c ∈ customersList cfg.n cfg.depot,
      (applyMerges cfg pre (init_routes cfg)).route_of_customer c
          < (applyMerges cfg pre (init_routes cfg)).routes.length ∧
      c ∈ interiorOf ((applyMerges cfg pre (init_routes cfg)).routes.getD
          ((applyMerges cfg pre (init_routes cfg)).route_of_customer c) []) ∧
      ((applyMerges cfg pre (init_routes cfg)).routes.map interiorOf).flatten.count c
          = 1) ∧
    (∀ r ∈ (applyMerges cfg pre (init_routes cfg)).routes,
      ∀ c ∈ interiorOf r, c ∈ customersList cfg.n cfg.depot) ∧
    (∀ c, c ∈ customersList cfg.n cfg.depot ↔
      ∃ r ∈ (solve cfg).routes, c ∈ interiorOf r) := by
  have hInv := inv_reachable cfg pre suf hsplit
  refine ⟨?_, ?_, ?_⟩
  · intro c hc
    obtain ⟨h1, h2⟩ := hInv.hroc c hc
    exact ⟨h1, h2, count_flatten_eq_one cfg _ hInv c hc⟩
  · intro r hr c hcmem
    obtain ⟨m, hm, rfl⟩ := List.mem_iff_getElem.mp hr
    rw [← getD_eq_getElem_of_lt _ _ [] hm] at hcmem
    exact (hInv.hmem m hm c hcmem).1
  · have hInvF := inv_reachable cfg (compute_savings cfg) [] (by simp)
    have hsolve : (solve cfg).routes
        = (applyMerges cfg (compute_savings cfg) (init_routes cfg)).routes := rfl
    intro c
    rw [hsolve]
    constructor
    · intro hc
      obtain ⟨h1, h2⟩ := hInvF.hroc c hc
      exact ⟨_, getD_mem_of_lt _ _ [] h1, h2⟩
    · rintro ⟨r, hr, hcr⟩
      obtain ⟨m, hm, rfl⟩ := List.mem_iff_getElem.mp hr
      rw [← getD_eq_getElem_of_lt _ _ [] hm] at hcr
      exact (hInvF.hmem m hm c hcr).1

/-- Witness for C1: the worked scenario, before any merge is applied. -/
theorem C1_partition_invariant_witness :
    compute_savings cfg5 = [] ++ compute_savings cfg5 ∧
    (∀ c, c ∈ customersList cfg5.n cfg5.depot ↔
      ∃ r ∈ (solve cfg5).routes, c ∈ interiorOf r) :=
  ⟨by simp,
    (C1_partition_invariant cfg5 [] (compute_savings cfg5) (by simp)).2.2⟩

/-- C2: splice correctness of `merge`.  In any invariant state where
`can_merge i j` holds, `merge i j` shrinks the route count by exactly
one; `i` and `j` end up in a common slot holding a depot-anchored route
with no depot in its interior, whose load is the sum of the two prior
routes' loads, and whose interior is given by the four endpoint cases
(direct concatenation, swapped concatenation, or one side reversed);
and the new route list is, up to order, the old one with slot `ri`
replaced by the spliced route and slot `rj` removed. -/
theorem C2_merge_splice (cfg : CWConfig) (st : CWState) (i j : Nat)
    (hInv : Inv cfg st) (hi : i ∈ customersList cfg.n cfg.depot)
    (hj : j ∈ customersList cfg.n cfg.depot)
    (hcm : can_merge cfg st i j = true) :
    (merge cfg st i j).routes.length + 1 = st.routes.length ∧
    ∃ k, k < (merge cfg st i j).routes.length ∧
      (merge cfg st i j).route_of_customer i = k ∧
      (merge cfg st i j).route_of_customer j = k ∧
      ∃ ci : List Nat,
        (merge cfg st i j).routes.getD k [] = cfg.depot :: ci ++ [cfg.depot] ∧
        ci ≠ [] ∧ cfg.depot ∉ ci ∧
        (merge cfg st i j).route_loads.getD k 0
          = st.route_loads.getD (st.route_of_customer i) 0
            + st.route_loads.getD (st.route_of_customer j) 0 ∧
        ((isLastCustomer st i = true ∧ isFirstCustomer st j = true ∧
            ci = interiorOf (routeOf st i) ++ interiorOf (routeOf st j)) ∨
         (isFirstCustomer st i = true ∧ isLastCustomer st j = true ∧
            ci = interiorOf (routeOf st j) ++ interiorOf (routeOf st i)) ∨
         (isFirstCustomer st i = true ∧ isFirstCustomer st j = true ∧
            ci = (interiorOf (routeOf st i)).reverse ++ interiorOf (routeOf st j)) ∨
         (isLastCustomer st i = true ∧ isLastCustomer st j = true ∧
            ci = interiorOf (routeOf st i) ++ (interiorOf (routeOf st j)).reverse)) ∧
        (merge cfg st i j).routes.Perm
          ((st.routes.set (st.route_of_customer i)
            (cfg.depot :: ci ++ [cfg.depot])).eraseIdx (st.route_of_customer j)) := by
  obtain ⟨ci, heq, hperm, hcases⟩ := merge_cases cfg st i j hInv hi hj hcm
  have hne := ((can_merge_eq_true_iff cfg st i j).mp hcm).1
  have hri : st.route_of_customer i < st.routes.length := (hInv.hroc i hi).1
  have hrj : st.route_of_customer j < st.routes.length := (hInv.hroc j hj).1
  have hcd_i : i ≠ cfg.depot := ne_depot_of_mem_customersList hi
  have hcd_j : j ≠ cfg.depot := ne_depot_of_mem_customersList hj
  have hi_ci : i ∈ ci := by
    rw [hperm.mem_iff, List.mem_append]
    exact Or.inl (hInv.hroc i hi).2
  have hj_ci : j ∈ ci := by
    rw [hperm.mem_iff, List.mem_append]
    exact Or.inr (hInv.hroc j hj).2
  have hi_nr : i ∈ cfg.depot :: ci ++ [cfg.depot] := (mem_anchored_iff hcd_i).mpr hi_ci
  have hj_nr : j ∈ cfg.depot :: ci ++ [cfg.depot] := (mem_anchored_iff hcd_j).mpr hj_ci
  have hRlen := mergeCommit_routes_length cfg st (st.route_of_customer i)
    (st.route_of_customer j) (cfg.depot :: ci ++ [cfg.depot])
  have hget := mergeCommit_routes_getD cfg st (st.route_of_customer i)
    (st.route_of_customer j) (cfg.depot :: ci ++ [cfg.depot]) hri hrj hne
  have hgetL := mergeCommit_loads_getD cfg st (st.route_of_customer i)
    (st.route_of_customer j) (cfg.depot :: ci ++ [cfg.depot]) hInv.hlen hri hrj hne
  have hroc2 := mergeCommit_roc cfg st (st.route_of_customer i)
    (st.route_of_customer j) (cfg.depot :: ci ++ [cfg.depot]) hri
  have hfM := fun h : st.routes.length - 1 < st.routes.length =>
    hInv.hform _ (getD_mem_of_lt st.routes (st.routes.length - 1) [] h)
  have hlast : st.routes.length - 1 < st.routes.length := by omega
  have hdep_ci : cfg.depot ∉ ci := by
    intro h
    rw [hperm.mem_iff, List.mem_append] at h
    rcases h with h | h
    · exact (hInv.hform _ (getD_mem_of_lt st.routes _ [] hri)).2.2 h
    · exact (hInv.hform _ (getD_mem_of_lt st.routes _ [] hrj)).2.2 h
  have hci_ne : ci ≠ [] := by
    intro h
    rw [h] at hi_ci
    exact absurd hi_ci (List.not_mem_nil i)
  constructor
  · rw [heq, hRlen]
    omega
  · refine ⟨if st.route_of_customer i = st.routes.length - 1
      then st.route_of_customer j else st.route_of_customer i, ?_, ?_, ?_, ?_⟩
    · rw [heq, hRlen]
      by_cases hril : st.route_of_customer i = st.routes.length - 1
      · rw [if_pos hril]
        have : st.route_of_customer j ≠ st.routes.length - 1 := by
          rw [← hril]
          exact fun h => hne h.symm
        omega
      · rw [if_neg hril]
        omega
    · rw [heq, hroc2 i, if_neg hcd_i]
      by_cases hril : st.route_of_customer i = st.routes.length - 1
      · rw [if_pos hril, if_pos ⟨by rw [← hril]; exact fun h => hne h.symm, hi_nr⟩,
          if_pos hril]
      · rw [if_neg hril]
        have hnp : ¬(st.route_of_customer j ≠ st.routes.length - 1 ∧
            i ∈ st.routes.getD (st.routes.length - 1) []) := by
          rintro ⟨h1, h2⟩
          have := (hInv.hmem (st.routes.length - 1) hlast i
            ((mem_form_iff_interior (hfM hlast) hcd_i).mp h2)).2
          exact hril this
        rw [if_neg hnp, if_pos hi_nr, if_neg hril]
    · rw [heq, hroc2 j, if_neg hcd_j]
      by_cases hril : st.route_of_customer i = st.routes.length - 1
      · rw [if_pos hril, if_pos ⟨by rw [← hril]; exact fun h => hne h.symm, hj_nr⟩,
          if_pos hril]
      · rw [if_neg hril]
        have hnp : ¬(st.route_of_customer j ≠ st.routes.length - 1 ∧
            j ∈ st.routes.getD (st.routes.length - 1) []) := by
          rintro ⟨h1, h2⟩
          have := (hInv.hmem (st.routes.length - 1) hlast j
            ((mem_form_iff_interior (hfM hlast) hcd_j).mp h2)).2
          exact h1 this
        rw [if_neg hnp, if_pos hj_nr, if_neg hril]
    · refine ⟨ci, ?_, hci_ne, hdep_ci, ?_, ?_, ?_⟩
      · rw [heq]
        by_cases hril : st.route_of_customer i = st.routes.length - 1
        · rw [if_pos hril]
          have hjlt : st.route_of_customer j < st.routes.length - 1 := by
            have : st.route_of_customer j ≠ st.routes.length - 1 := by
              rw [← hril]
              exact fun h => hne h.symm
            omega
          rw [hget _ hjlt, if_neg (fun h => hne h.symm), if_pos rfl, if_pos hril]
        · rw [if_neg hril]
          have hilt : st.route_of_customer i < st.routes.length - 1 := by omega
          rw [hget _ hilt, if_pos rfl]
      · rw [heq]
        by_cases hril : st.route_of_customer i = st.routes.length - 1
        · rw [if_pos hril]
          have hjlt : st.route_of_customer j < st.routes.length - 1 := by
            have : st.route_of_customer j ≠ st.routes.length - 1 := by
              rw [← hril]
              exact fun h => hne h.symm
            omega
          rw [hgetL _ hjlt, if_neg (fun h => hne h.symm), if_pos rfl, if_pos hril]
        · rw [if_neg hril]
          have hilt : st.route_of_customer i < st.routes.length - 1 := by omega
          rw [hgetL _ hilt, if_pos rfl]
      · exact hcases
      · rw [heq]
        exact mergeCommit_routes_perm cfg st _ _ _ hri hrj hne

unseal Rat.add Rat.sub in
/-- Witness for C2: the first merge of the worked scenario. -/
theorem C2_merge_splice_witness :
    2 ∈ customersList cfg5.n cfg5.depot ∧ 3 ∈ customersList cfg5.n cfg5.depot ∧
    can_merge cfg5 (init_routes cfg5) 2 3 = true ∧
    (merge cfg5 (init_routes cfg5) 2 3).routes.length + 1
      = (init_routes cfg5).routes.length :=
  ⟨by decide, by decide, by decide,
    (C2_merge_splice cfg5 (init_routes cfg5) 2 3 (inv_init cfg5) (by decide)
      (by decide) (by decide)).1⟩

/-- C3: `can_merge(i, j)` returns false exactly when `i` and `j` share a
route, or `i` is not the first or last customer of its route, or `j` is
not, or the combined load exceeds the capacity; true otherwise. -/
theorem C3_can_merge_false_iff (cfg : CWConfig) (st : CWState) (i j : Nat) :
    can_merge cfg st i j = false ↔
      st.route_of_customer i = st.route_of_customer j ∨
      ¬(isFirstCustomer st i = true ∨ isLastCustomer st i = true) ∨
      ¬(isFirstCustomer st j = true ∨ isLastCustomer st j = true) ∨
      cfg.Q < st.route_loads.getD (st.route_of_customer i) 0 +
        st.route_loads.getD (st.route_of_customer j) 0 := by
  rw [show (can_merge cfg st i j = false) ↔ ¬(can_merge cfg st i j = true) from by
    simp, can_merge_eq_true_iff]
  simp only [not_and_or, not_not, not_le, ne_eq]

/-- C10: whenever `can_merge(i, j)` is true, at least one of the four
endpoint cases tested by `merge` holds, so `merge`'s final `else`
branch (which would return without mutating state) is never taken. -/
theorem C10_no_fallthrough (cfg : CWConfig) (st : CWState) (i j : Nat)
    (hcm : can_merge cfg st i j = true) :
    ((isLastCustomer st i && isFirstCustomer st j)
      || (isFirstCustomer st i && isLastCustomer st j)
      || (isFirstCustomer st i && isFirstCustomer st j)
      || (isLastCustomer st i && isLastCustomer st j)) = true := by
  obtain ⟨-, hei, hej, -⟩ := (can_merge_eq_true_iff cfg st i j).mp hcm
  rcases hei with h1 | h1 <;> rcases hej with h2 | h2 <;> simp [h1, h2]

unseal Rat.add Rat.sub in
/-- Witness for C10: the first merge of the worked scenario. -/
theorem C10_no_fallthrough_witness :
    can_merge cfg5 (init_routes cfg5) 2 3 = true ∧
    ((isLastCustomer (init_routes cfg5) 2 && isFirstCustomer (init_routes cfg5) 3)
      || (isFirstCustomer (init_routes cfg5) 2 && isLastCustomer (init_routes cfg5) 3)
      || (isFirstCustomer (init_routes cfg5) 2 && isFirstCustomer (init_routes cfg5) 3)
      || (isLastCustomer (init_routes cfg5) 2 && isLastCustomer (init_routes cfg5) 3))
      = true :=
  ⟨by decide, C10_no_fallthrough cfg5 (init_routes cfg5) 2 3 (by decide)⟩

unseal Rat.add Rat.sub in
/-- C5: the worked scenario.  On the 4×4 matrix with demands
`{1: 2, 2: 3, 3: 1}` and capacity 5, the savings sort to
`[(32,2,3), (15,1,2), (15,1,3)]`; the pair `(2, 3)` merges first
(loads `3+1 = 4 ≤ 5`) producing route `[0, 2, 3, 0]`; both remaining
savings are skipped (combined load 6 > 5); `solve` returns exactly the
two routes `[0, 1, 0]` and `[0, 2, 3, 0]` with total cost 88. -/
theorem C5_worked_scenario :
    compute_savings cfg5 = [(32, 2, 3), (15, 1, 2), (15, 1, 3)] ∧
    can_merge cfg5 (init_routes cfg5) 2 3 = true ∧
    (step cfg5 (init_routes cfg5) (32, 2, 3)).routes = [[0, 1, 0], [0, 2, 3, 0]] ∧
    can_merge cfg5 (step cfg5 (init_routes cfg5) (32, 2, 3)) 1 2 = false ∧
    can_merge cfg5 (step cfg5 (init_routes cfg5) (32, 2, 3)) 1 3 = false ∧
    (solve cfg5).routes = [[0, 1, 0], [0, 2, 3, 0]] ∧
    (solve cfg5).total_cost = 88 := by
  decide

/-! ## Capacity bounds -/

theorem capOk_init (cfg : CWConfig)
    (hdem : ∀ c ∈ customersList cfg.n cfg.depot, cfg.returns c ≤ cfg.Q) :
    CapOk cfg (init_routes cfg) := by
  intro k hk
  have hk2 : k < (customersList cfg.n cfg.depot).length := by
    simpa [init_routes] using hk
  show ((customersList cfg.n cfg.depot).map cfg.returns).getD k 0 ≤ cfg.Q
  rw [List.getD_eq_getElem?_getD, List.getElem?_eq_getElem (by simpa using hk2)]
  simp only [List.getElem_map, Option.getD_some]
  exact hdem _ (List.getElem_mem hk2)

theorem capOk_mergeCommit (cfg : CWConfig) (st : CWState) (ri rj : Nat)
    (nr : List Nat) (hcap : CapOk cfg st)
    (hlen : st.route_loads.length = st.routes.length)
    (hri : ri < st.routes.length) (hrj : rj < st.routes.length) (hne : ri ≠ rj)
    (hnl : st.route_loads.getD ri 0 + st.route_loads.getD rj 0 ≤ cfg.Q) :
    CapOk cfg (mergeCommit cfg st ri rj nr) := by
  intro m hm
  rw [mergeCommit_routes_length] at hm
  rw [mergeCommit_loads_getD cfg st ri rj nr hlen hri hrj hne m hm]
  split_ifs
  · exact hnl
  · exact hnl
  · exact hcap _ (by omega)
  · exact hcap _ (by omega)

theorem capOk_step (cfg : CWConfig) (st : CWState) (t : ℚ × Nat × Nat)
    (hInv : Inv cfg st) (hcap : CapOk cfg st)
    (h1 : t.2.1 ∈ customersList cfg.n cfg.depot)
    (h2 : t.2.2 ∈ customersList cfg.n cfg.depot) :
    CapOk cfg (step cfg st t) := by
  unfold step
  split_ifs with h
  · obtain ⟨ci, heq, hperm, -⟩ := merge_cases cfg st _ _ hInv h1 h2 h
    rw [heq]
    obtain ⟨hne, -, -, hcapQ⟩ := (can_merge_eq_true_iff cfg st t.2.1 t.2.2).mp h
    exact capOk_mergeCommit cfg st _ _ _ hcap hInv.hlen (hInv.hroc _ h1).1
      (hInv.hroc _ h2).1 hne hcapQ
  · exact hcap

theorem capOk_applyMerges (cfg : CWConfig) (ts : List (ℚ × Nat × Nat)) (st : CWState)
    (hInv : Inv cfg st) (hcap : CapOk cfg st)
    (hts : ∀ t ∈ ts, t.2.1 ∈ customersList cfg.n cfg.depot ∧
      t.2.2 ∈ customersList cfg.n cfg.depot) :
    CapOk cfg (applyMerges cfg ts st) := by
  induction ts generalizing st with
  | nil => exact hcap
  | cons a ts ih =>
    exact ih _
      (inv_step cfg st a hInv (hts a (List.mem_cons_self a ts)).1
        (hts a (List.mem_cons_self a ts)).2)
      (capOk_step cfg st a hInv hcap (hts a (List.mem_cons_self a ts)).1
        (hts a (List.mem_cons_self a ts)).2)
      (fun t ht => hts t (List.mem_cons_of_mem a ht))

unseal Rat.add Rat.sub in
/-- Counterexample to C6 as stated: with capacity 5 and a single
customer of demand 10, `solve` returns the route `[0, 1, 0]` whose
aggregate load 10 exceeds the capacity. -/
theorem C6_capacity_counterexample :
    [0, 1, 0] ∈ (solve cfgC6).routes ∧ ¬(routeLoad cfgC6 [0, 1, 0] ≤ cfgC6.Q) := by
  decide

/-- C6 amended: provided every single customer's demand is at most the
vehicle capacity, every route in the result of `solve` has aggregate
load at most the capacity.  (Unconditionally the code only guarantees
this for routes produced by a merge; an initial singleton route of an
oversized customer ships as-is.) -/
theorem C6_capacity_invariant (cfg : CWConfig)
    (hdem : ∀ c ∈ customersList cfg.n cfg.depot, cfg.returns c ≤ cfg.Q) :
    ∀ r ∈ (solve cfg).routes, routeLoad cfg r ≤ cfg.Q := by
  intro r hr
  have hts : ∀ t ∈ compute_savings cfg, t.2.1 ∈ customersList cfg.n cfg.depot ∧
      t.2.2 ∈ customersList cfg.n cfg.depot := by
    intro t ht
    have hm := (mem_rawSavings cfg t).mp ((mem_compute_savings cfg t).mp ht)
    exact ⟨hm.1, hm.2.1⟩
  have hInv := inv_applyMerges cfg (compute_savings cfg) _ (inv_init cfg) hts
  have hcap := capOk_applyMerges cfg (compute_savings cfg) _ (inv_init cfg)
    (capOk_init cfg hdem) hts
  have hsolve : (solve cfg).routes
      = (applyMerges cfg (compute_savings cfg) (init_routes cfg)).routes := rfl
  rw [hsolve] at hr
  obtain ⟨m, hm, rfl⟩ := List.mem_iff_getElem.mp hr
  rw [← getD_eq_getElem_of_lt _ _ [] hm, ← hInv.hload m hm]
  exact hcap m hm

unseal Rat.add Rat.sub in
/-- Witness for the amended C6 at the worked scenario. -/
theorem C6_capacity_invariant_witness :
    (∀ c ∈ customersList cfg5.n cfg5.depot, cfg5.returns c ≤ cfg5.Q) ∧
    (∀ r ∈ (solve cfg5).routes, routeLoad cfg5 r ≤ cfg5.Q) :=
  ⟨by decide, C6_capacity_invariant cfg5 (by decide)⟩

unseal Rat.add Rat.sub in
/-- Counterexample to C9 as stated: `cfgC9` has a non-square matrix (two
rows of length three), yet `solve` raises nothing and returns a normal
result with a fully built route — there is no `InvalidInput` check. -/
theorem C9_no_validation_counterexample :
    ¬(∀ row ∈ cfgC9.d, row.length = cfgC9.d.length) ∧
    (solve cfgC9).routes = [[0, 1, 0]] ∧ (solve cfgC9).total_cost = 2 := by
  decide

unseal Rat.add Rat.sub in
/-- C9 amended: the code performs no input validation at all.  Routes
are built unconditionally for every input (even with an out-of-range
depot index, as in `cfgC9b` where the depot 5 exceeds the single-row
matrix), and on the non-square matrix of `cfgC9` the solver runs to
completion and returns a normal result. -/
theorem C9_no_validation :
    (solve cfgC9).routes = [[0, 1, 0]] ∧ (solve cfgC9).total_cost = 2 ∧
    (init_routes cfgC9b).routes = [[5, 0, 5]] ∧
    (∀ cfg : CWConfig, (init_routes cfg).routes.length
      = (customersList cfg.n cfg.depot).length) :=
  ⟨by decide, by decide, by decide, fun cfg => by simp [init_routes]⟩

/-! ## Oversized customers stay on their own route -/

theorem loads_nonneg (cfg : CWConfig) (st : CWState) (hInv : Inv cfg st)
    (hpos : ∀ y, 0 ≤ cfg.returns y) (k : Nat) :
    0 ≤ st.route_loads.getD k 0 := by
  by_cases hk : k < st.routes.length
  · rw [hInv.hload k hk]
    unfold routeLoad
    refine List.sum_nonneg ?_
    intro x hx
    rw [List.mem_map] at hx
    obtain ⟨y, -, rfl⟩ := hx
    exact hpos y
  · rw [List.getD_eq_getElem?_getD, List.getElem?_eq_none (by rw [hInv.hlen]; omega)]
    exact le_refl 0

theorem pinned_init (cfg : CWConfig) (c : Nat)
    (hc : c ∈ customersList cfg.n cfg.depot) : Pinned cfg (init_routes cfg) c := by
  have hidx : (customersList cfg.n cfg.depot).indexOf c
      < (customersList cfg.n cfg.depot).length := List.indexOf_lt_length.mpr hc
  constructor
  · rw [init_roc_eq, if_pos hc, init_routes_getD cfg _ hidx,
      List.getElem_indexOf hidx]
  · rw [init_roc_eq, if_pos hc]
    show ((customersList cfg.n cfg.depot).map cfg.returns).getD _ 0 = cfg.returns c
    rw [List.getD_eq_getElem?_getD, List.getElem?_eq_getElem (by simpa using hidx)]
    simp only [List.getElem_map, Option.getD_some]
    rw [List.getElem_indexOf hidx]

/-- With all demands non-negative and `c`'s demand above the capacity,
no `can_merge` involving `c` can succeed: the capacity test (or an
earlier test) always fails. -/
theorem can_merge_with_over (cfg : CWConfig) (st : CWState) (c x : Nat)
    (hInv : Inv cfg st) (hpin : Pinned cfg st c) (hpos : ∀ y, 0 ≤ cfg.returns y)
    (hover : cfg.Q < cfg.returns c) :
    can_merge cfg st c x = false ∧ can_merge cfg st x c = false := by
  have hnn := loads_nonneg cfg st hInv hpos
  constructor
  · rw [show (can_merge cfg st c x = false) ↔ ¬(can_merge cfg st c x = true) from by
      simp, can_merge_eq_true_iff]
    rintro ⟨-, -, -, hcap⟩
    rw [hpin.2] at hcap
    have := hnn (st.route_of_customer x)
    linarith
  · rw [show (can_merge cfg st x c = false) ↔ ¬(can_merge cfg st x c = true) from by
      simp, can_merge_eq_true_iff]
    rintro ⟨-, -, -, hcap⟩
    rw [hpin.2] at hcap
    have := hnn (st.route_of_customer x)
    linarith

theorem pinned_step (cfg : CWConfig) (st : CWState) (t : ℚ × Nat × Nat) (c : Nat)
    (hInv : Inv cfg st) (hpin : Pinned cfg st c)
    (hc : c ∈ customersList cfg.n cfg.depot)
    (hpos : ∀ y, 0 ≤ cfg.returns y) (hover : cfg.Q < cfg.returns c)
    (h1 : t.2.1 ∈ customersList cfg.n cfg.depot)
    (h2 : t.2.2 ∈ customersList cfg.n cfg.depot) :
    Pinned cfg (step cfg st t) c := by
  unfold step
  split_ifs with h
  swap
  · exact hpin
  have hic : t.2.1 ≠ c := by
    rintro rfl
    rw [(can_merge_with_over cfg st t.2.1 t.2.2 hInv hpin hpos hover).1] at h
    exact Bool.false_ne_true h
  have hjc : t.2.2 ≠ c := by
    rintro rfl
    rw [(can_merge_with_over cfg st t.2.2 t.2.1 hInv hpin hpos hover).2] at h
    exact Bool.false_ne_true h
  have hcd : c ≠ cfg.depot := ne_depot_of_mem_customersList hc
  have hsingle : interiorOf (st.routes.getD (st.route_of_customer c) []) = [c] := by
    rw [hpin.1]
    rfl
  have hri_ne : st.route_of_customer t.2.1 ≠ st.route_of_customer c := by
    intro hEq
    have hmemi := (hInv.hroc t.2.1 h1).2
    rw [hEq, hsingle] at hmemi
    exact hic (List.mem_singleton.mp hmemi)
  have hrj_ne : st.route_of_customer t.2.2 ≠ st.route_of_customer c := by
    intro hEq
    have hmemj := (hInv.hroc t.2.2 h2).2
    rw [hEq, hsingle] at hmemj
    exact hjc (List.mem_singleton.mp hmemj)
  obtain ⟨ci, heq, hperm, -⟩ := merge_cases cfg st t.2.1 t.2.2 hInv h1 h2 h
  have hne := ((can_merge_eq_true_iff cfg st t.2.1 t.2.2).mp h).1
  have hri := (hInv.hroc _ h1).1
  have hrj := (hInv.hroc _ h2).1
  have hkc := (hInv.hroc c hc).1
  rw [heq]
  have hc_ci : c ∉ ci := by
    intro hcci
    rw [hperm.mem_iff, List.mem_append] at hcci
    rcases hcci with h' | h'
    · exact hri_ne ((hInv.hmem _ hri c h').2).symm
    · exact hrj_ne ((hInv.hmem _ hrj c h').2).symm
  have hc_nr : c ∉ (cfg.depot :: ci ++ [cfg.depot]) := fun hmem =>
    hc_ci ((mem_anchored_iff hcd).mp hmem)
  have hroc2 := mergeCommit_roc cfg st (st.route_of_customer t.2.1)
    (st.route_of_customer t.2.2) (cfg.depot :: ci ++ [cfg.depot]) hri
  have hget := mergeCommit_routes_getD cfg st (st.route_of_customer t.2.1)
    (st.route_of_customer t.2.2) (cfg.depot :: ci ++ [cfg.depot]) hri hrj hne
  have hgetL := mergeCommit_loads_getD cfg st (st.route_of_customer t.2.1)
    (st.route_of_customer t.2.2) (cfg.depot :: ci ++ [cfg.depot])
    hInv.hlen hri hrj hne
  by_cases hcl : st.route_of_customer c = st.routes.length - 1
  · have hril : st.route_of_customer t.2.1 ≠ st.routes.length - 1 := by
      rw [← hcl]
      exact hri_ne
    have hrjl : st.route_of_customer t.2.2 ≠ st.routes.length - 1 := by
      rw [← hcl]
      exact hrj_ne
    have hcM : c ∈ st.routes.getD (st.routes.length - 1) [] := by
      rw [← hcl, hpin.1]
      simp
    have hrjlt : st.route_of_customer t.2.2 < st.routes.length - 1 := by omega
    constructor
    · rw [hroc2 c, if_neg hcd, if_pos ⟨hrjl, by rw [if_neg hril]; exact hcM⟩]
      rw [hget _ hrjlt, if_neg (fun hh => hne hh.symm), if_pos rfl, if_neg hril,
        ← hcl]
      exact hpin.1
    · rw [hroc2 c, if_neg hcd, if_pos ⟨hrjl, by rw [if_neg hril]; exact hcM⟩]
      rw [hgetL _ hrjlt, if_neg (fun hh => hne hh.symm), if_pos rfl, if_neg hril,
        ← hcl]
      exact hpin.2
  · have hklt : st.route_of_customer c < st.routes.length - 1 := by omega
    have hnp : ¬(st.route_of_customer t.2.2 ≠ st.routes.length - 1 ∧
        c ∈ (if st.route_of_customer t.2.1 = st.routes.length - 1
             then (cfg.depot :: ci ++ [cfg.depot])
             else st.routes.getD (st.routes.length - 1) [])) := by
      rintro ⟨h1', h2'⟩
      by_cases hril : st.route_of_customer t.2.1 = st.routes.length - 1
      · rw [if_pos hril] at h2'
        exact hc_nr h2'
      · rw [if_neg hril] at h2'
        have hfM := hInv.hform _
          (getD_mem_of_lt st.routes (st.routes.length - 1) [] (by omega))
        have := (hInv.hmem (st.routes.length - 1) (by omega) c
          ((mem_form_iff_interior hfM hcd).mp h2')).2
        exact hcl this
    constructor
    · rw [hroc2 c, if_neg hcd, if_neg hnp, if_neg hc_nr]
      rw [hget _ hklt, if_neg (fun hh => hri_ne hh.symm),
        if_neg (fun hh => hrj_ne hh.symm)]
      exact hpin.1
    · rw [hroc2 c, if_neg hcd, if_neg hnp, if_neg hc_nr]
      rw [hgetL _ hklt, if_neg (fun hh => hri_ne hh.symm),
        if_neg (fun hh => hrj_ne hh.symm)]
      exact hpin.2

theorem pinned_applyMerges (cfg : CWConfig) (ts : List (ℚ × Nat × Nat))
    (st : CWState) (c : Nat) (hInv : Inv cfg st) (hpin : Pinned cfg st c)
    (hc : c ∈ customersList cfg.n cfg.depot)
    (hpos : ∀ y, 0 ≤ cfg.returns y) (hover : cfg.Q < cfg.returns c)
    (hts : ∀ t ∈ ts, t.2.1 ∈ customersList cfg.n cfg.depot ∧
      t.2.2 ∈ customersList cfg.n cfg.depot) :
    Pinned cfg (applyMerges cfg ts st) c := by
  induction ts generalizing st with
  | nil => exact hpin
  | cons a ts ih =>
    exact ih _
      (inv_step cfg st a hInv (hts a (List.mem_cons_self a ts)).1
        (hts a (List.mem_cons_self a ts)).2)
      (pinned_step cfg st a c hInv hpin hc hpos hover
        (hts a (List.mem_cons_self a ts)).1 (hts a (List.mem_cons_self a ts)).2)
      (fun t ht => hts t (List.mem_cons_of_mem a ht))

/-- C8: if some customer `c` has demand strictly greater than the
capacity (all demands non-negative), `solve` still runs (the model is
total, matching the code raising nothing on such inputs): `c`'s
singleton route `[depot, c, depot]` appears unchanged as a dedicated
route in the final result, and at every intermediate state of the merge
loop every `can_merge` involving `c` returns false. -/
theorem C8_oversized_demand (cfg : CWConfig) (c : Nat)
    (hc : c ∈ customersList cfg.n cfg.depot)
    (hpos : ∀ y, 0 ≤ cfg.returns y) (hover : cfg.Q < cfg.returns c) :
    [cfg.depot, c, cfg.depot] ∈ (solve cfg).routes ∧
    ∀ pre suf, compute_savings cfg = pre ++ suf → ∀ x,
      can_merge cfg (applyMerges cfg pre (init_routes cfg)) c x = false ∧
      can_merge cfg (applyMerges cfg pre (init_routes cfg)) x c = false := by
  have hts : ∀ t ∈ compute_savings cfg, t.2.1 ∈ customersList cfg.n cfg.depot ∧
      t.2.2 ∈ customersList cfg.n cfg.depot := by
    intro t ht
    have hm := (mem_rawSavings cfg t).mp ((mem_compute_savings cfg t).mp ht)
    exact ⟨hm.1, hm.2.1⟩
  constructor
  · have hInv := inv_applyMerges cfg (compute_savings cfg) _ (inv_init cfg) hts
    have hpinF := pinned_applyMerges cfg (compute_savings cfg) _ c (inv_init cfg)
      (pinned_init cfg c hc) hc hpos hover hts
    have hsolve : (solve cfg).routes
        = (applyMerges cfg (compute_savings cfg) (init_routes cfg)).routes := rfl
    rw [hsolve, ← hpinF.1]
    exact getD_mem_of_lt _ _ [] (hInv.hroc c hc).1
  · intro pre suf hsplit x
    have htspre : ∀ t ∈ pre, t.2.1 ∈ customersList cfg.n cfg.depot ∧
        t.2.2 ∈ customersList cfg.n cfg.depot := by
      intro t ht
      exact hts t (by rw [hsplit]; exact List.mem_append_left _ ht)
    have hInv := inv_applyMerges cfg pre _ (inv_init cfg) htspre
    have hpinP := pinned_applyMerges cfg pre _ c (inv_init cfg)
      (pinned_init cfg c hc) hc hpos hover htspre
    exact can_merge_with_over cfg _ c x hInv hpinP hpos hover

unseal Rat.add Rat.sub in
/-- Witness for C8: customer 1 of `cfgC8` has demand 10 over capacity 5. -/
theorem C8_oversized_demand_witness :
    1 ∈ customersList cfgC8.n cfgC8.depot ∧
    [cfgC8.depot, 1, cfgC8.depot] ∈ (solve cfgC8).routes :=
  ⟨by decide,
    (C8_oversized_demand cfgC8 1 (by decide)
      (fun y => by
        show (0 : ℚ) ≤ (if y = 1 then 10 else if y = 2 then 1 else 0)
        split_ifs <;> norm_num)
      (by show (5 : ℚ) < 10; norm_num)).1⟩

/-! ## Counting and ordering the savings list -/

theorem sum_filter_lt_choose (L : List Nat) (hL : L.Pairwise (· < ·)) :
    (L.map (fun i => (L.filter (fun j => decide (i < j))).length)).sum
      = L.length.choose 2 := by
  induction L with
  | nil => simp
  | cons a l ih =>
    obtain ⟨ha, hl⟩ := List.pairwise_cons.mp hL
    rw [List.map_cons, List.sum_cons]
    have h1 : (a :: l).filter (fun j => decide (a < j)) = l := by
      rw [List.filter_cons, if_neg (by simp)]
      exact List.filter_eq_self.mpr (fun b hb => by simpa using ha b hb)
    have h3 : l.map (fun i => ((a :: l).filter (fun j => decide (i < j))).length)
        = l.map (fun i => (l.filter (fun j => decide (i < j))).length) := by
      refine List.map_congr_left ?_
      intro i hi
      have hai := ha i hi
      rw [List.filter_cons, if_neg (by simp only [decide_eq_true_eq]; omega)]
    rw [h1, h3, ih hl, List.length_cons,
      show l.length + 1 = l.length.succ from rfl, Nat.choose_succ_succ,
      Nat.choose_one_right]

theorem customersList_pairwise_lt (n dep : Nat) :
    (customersList n dep).Pairwise (· < ·) :=
  List.Pairwise.filter _ (List.pairwise_lt_range n)

theorem customersList_length : ∀ {n dep : Nat}, dep < n →
    (customersList n dep).length = n - 1 := by
  intro n
  induction n with
  | zero => exact fun h => absurd h (Nat.not_lt_zero _)
  | succ m ih =>
    intro dep hdep
    unfold customersList at *
    rw [List.range_succ, List.filter_append]
    by_cases hmx : m = dep
    · subst hmx
      rw [show ([m].filter (fun i => decide (i ≠ m))) = [] from by simp,
        List.append_nil,
        List.filter_eq_self.mpr (fun a ha => by
          simp only [decide_eq_true_eq]
          exact Nat.ne_of_lt (List.mem_range.mp ha))]
      simp
    · have hdm : dep < m := by omega
      rw [show ([m].filter (fun i => decide (i ≠ dep))) = [m] from by simp [hmx],
        List.length_append, ih hdm, List.length_singleton]
      omega

theorem rawSavings_length (cfg : CWConfig) :
    (rawSavings cfg).length = (customersList cfg.n cfg.depot).length.choose 2 := by
  unfold rawSavings
  rw [List.length_flatMap]
  have hcongr : (customersList cfg.n cfg.depot).map
        (List.length ∘ fun i => (((customersList cfg.n cfg.depot).filter
          (fun j => decide (i < j))).map (fun j =>
            (dget cfg.d cfg.depot i + dget cfg.d cfg.depot j - dget cfg.d i j, i, j))))
      = (customersList cfg.n cfg.depot).map
        (fun i => ((customersList cfg.n cfg.depot).filter
          (fun j => decide (i < j))).length) := by
    refine List.map_congr_left ?_
    intro i hi
    simp [List.length_map]
  rw [hcongr, sum_filter_lt_choose _ (customersList_pairwise_lt _ _)]

theorem flatMap_pairs_nodup (L : List Nat) (hL : L.Nodup) (F : Nat → List Nat)
    (hF : ∀ i, (F i).Nodup) :
    (L.flatMap (fun i => (F i).map (fun j => (i, j)))).Nodup := by
  induction L with
  | nil => simp
  | cons a l ih =>
    rw [List.flatMap_cons]
    refine List.Nodup.append ?_ (ih (List.Nodup.of_cons hL)) ?_
    · refine List.Nodup.map ?_ (hF a)
      intro x y hxy
      simpa using congrArg Prod.snd hxy
    · intro p hp1 hp2
      rw [List.mem_map] at hp1
      obtain ⟨j, -, rfl⟩ := hp1
      rw [List.mem_flatMap] at hp2
      obtain ⟨i, hi, hp2⟩ := hp2
      rw [List.mem_map] at hp2
      obtain ⟨j2, -, heq2⟩ := hp2
      have hia : i = a := congrArg Prod.fst heq2
      exact (List.nodup_cons.mp hL).1 (hia ▸ hi)

theorem rawSavings_pairs_nodup (cfg : CWConfig) :
    ((rawSavings cfg).map (fun t => (t.2.1, t.2.2))).Nodup := by
  unfold rawSavings
  rw [List.map_flatMap]
  simp only [List.map_map]
  exact flatMap_pairs_nodup _ (customersList_nodup _ _) _
    (fun i => (customersList_nodup _ _).filter _)

/-- Filtering by a property that no element before the insertion point
can satisfy commutes with `orderedInsert` — the core of stability. -/
theorem filter_orderedInsert {α : Type} (r : α → α → Prop) [DecidableRel r]
    (p : α → Bool) (a : α) (L : List α)
    (hpnot : p a = true → ∀ b, ¬ r a b → p b = false) :
    (List.orderedInsert r a L).filter p
      = if p a = true then a :: L.filter p else L.filter p := by
  rw [List.orderedInsert_eq_take_drop, List.filter_append, List.filter_cons]
  by_cases hpa : p a = true
  · have htw : ((L.takeWhile fun b => decide ¬r a b).filter p) = [] := by
      rw [List.filter_eq_nil_iff]
      intro b hb
      have hmem := List.mem_takeWhile_imp hb
      simp only [decide_eq_true_eq] at hmem
      simp [hpnot hpa b hmem]
    rw [if_pos hpa, if_pos hpa, htw, List.nil_append]
    have hLsplit : L.filter p
        = ((L.takeWhile fun b => decide ¬r a b).filter p)
          ++ ((L.dropWhile fun b => decide ¬r a b).filter p) := by
      rw [← List.filter_append, List.takeWhile_append_dropWhile]
    rw [hLsplit, htw, List.nil_append]
  · rw [if_neg hpa, if_neg hpa]
    have hLsplit : L.filter p
        = ((L.takeWhile fun b => decide ¬r a b).filter p)
          ++ ((L.dropWhile fun b => decide ¬r a b).filter p) := by
      rw [← List.filter_append, List.takeWhile_append_dropWhile]
    rw [hLsplit]

/-- An insertion sort is stable: filtering the sorted list by any one
key value returns those elements in their original order. -/
theorem filter_insertionSort {α : Type} (r : α → α → Prop) [DecidableRel r]
    (p : α → Bool) (hp : ∀ a, p a = true → ∀ b, ¬ r a b → p b = false)
    (L : List α) :
    (List.insertionSort r L).filter p = L.filter p := by
  induction L with
  | nil => rfl
  | cons a l ih =>
    show (List.orderedInsert r a (List.insertionSort r l)).filter p = _
    rw [filter_orderedInsert r p a _ (hp a), ih, List.filter_cons]

theorem compute_savings_filter_eq (cfg : CWConfig) (v : ℚ) :
    (compute_savings cfg).filter (fun t => t.1 == v)
      = (rawSavings cfg).filter (fun t => t.1 == v) := by
  unfold compute_savings
  refine filter_insertionSort _ _ ?_ _
  intro a ha b hrb
  rw [beq_iff_eq] at ha
  have hgt : a.1 < b.1 := not_le.mp hrb
  rw [show ((b.1 == v) = false) ↔ ¬(b.1 = v) from by simp]
  rw [← ha]
  exact Ne.symm (ne_of_lt hgt)

/-- C4: savings estimator output guarantee.  For an N×N matrix with an
in-range depot, `compute_savings` has exactly `C(N-1, 2)` entries; its
members are precisely the triples `(d[depot][i] + d[depot][j] - d[i][j],
i, j)` over customer pairs `i < j` (no self-pairs, no depot pairs, one
entry per unordered pair); the list is sorted by value descending; ties
keep generation order (stable sort: filtering by any single value equals
the same filter of the unsorted list); and the output depends only on
the matrix and the depot, so repeated calls agree. -/
theorem C4_savings_spec (cfg : CWConfig)
    (hsq : ∀ row ∈ cfg.d, row.length = cfg.d.length)
    (hdep : cfg.depot < cfg.n) :
    (compute_savings cfg).length = (cfg.n - 1).choose 2 ∧
    (∀ s i j, ((s, i, j) ∈ compute_savings cfg ↔
      (i ∈ customersList cfg.n cfg.depot ∧ j ∈ customersList cfg.n cfg.depot ∧
        i < j ∧
        s = dget cfg.d cfg.depot i + dget cfg.d cfg.depot j - dget cfg.d i j))) ∧
    ((compute_savings cfg).map (fun t => (t.2.1, t.2.2))).Nodup ∧
    (compute_savings cfg).Pairwise (fun a b => b.1 ≤ a.1) ∧
    (∀ v : ℚ, (compute_savings cfg).filter (fun t => t.1 == v)
      = (rawSavings cfg).filter (fun t => t.1 == v)) ∧
    (∀ cfg' : CWConfig, cfg'.d = cfg.d → cfg'.depot = cfg.depot →
      compute_savings cfg' = compute_savings cfg) := by
  refine ⟨?_, ?_, ?_, ?_, ?_, ?_⟩
  · unfold compute_savings
    rw [(List.perm_insertionSort _ _).length_eq, rawSavings_length,
      customersList_length hdep]
  · intro s i j
    rw [mem_compute_savings, mem_rawSavings]
  · exact ((List.perm_insertionSort _ _).map
      (fun t : ℚ × Nat × Nat => (t.2.1, t.2.2))).nodup_iff.mpr
      (rawSavings_pairs_nodup cfg)
  · unfold compute_savings
    letI : IsTotal (ℚ × Nat × Nat) (fun a b => b.1 ≤ a.1) :=
      ⟨fun a b => le_total b.1 a.1⟩
    letI : IsTrans (ℚ × Nat × Nat) (fun a b => b.1 ≤ a.1) :=
      ⟨fun a b c h1 h2 => le_trans h2 h1⟩
    exact List.sorted_insertionSort _ _
  · exact compute_savings_filter_eq cfg
  · intro cfg' hd hdep2
    unfold compute_savings rawSavings CWConfig.n
    rw [hd, hdep2]

/-- Witness for C4 at the worked scenario (4×4 matrix, depot 0). -/
theorem C4_savings_spec_witness :
    (∀ row ∈ cfg5.d, row.length = cfg5.d.length) ∧ cfg5.depot < cfg5.n ∧
    (compute_savings cfg5).length = (cfg5.n - 1).choose 2 :=
  ⟨by decide, by decide, (C4_savings_spec cfg5 (by decide) (by decide)).1⟩

/-! ## Cost bookkeeping -/

theorem sum_map_eraseIdx {α : Type} (f : α → ℚ) :
    ∀ (l : List α) (k : Nat) (hk : k < l.length),
      ((l.eraseIdx k).map f).sum = (l.map f).sum - f l[k] := by
  intro l
  induction l with
  | nil => intro k hk; exact absurd hk (by simp)
  | cons x l ih =>
    intro k hk
    cases k with
    | zero =>
      show (l.map f).sum = ((x :: l).map f).sum - f x
      rw [List.map_cons, List.sum_cons]
      ring
    | succ k' =>
      have hk2 : k' < l.length := by simpa using Nat.lt_of_succ_lt_succ hk
      show ((x :: l.eraseIdx k').map f).sum = _
      rw [List.map_cons, List.sum_cons, ih k' hk2, List.map_cons, List.sum_cons]
      have hidx : (x :: l)[k' + 1] = l[k'] := List.getElem_cons_succ x l k' (by simpa using hk)
      rw [hidx]
      ring

theorem sum_map_set {α : Type} (f : α → ℚ) :
    ∀ (l : List α) (k : Nat) (a : α) (hk : k < l.length),
      ((l.set k a).map f).sum = (l.map f).sum - f l[k] + f a := by
  intro l
  induction l with
  | nil => intro k a hk; exact absurd hk (by simp)
  | cons x l ih =>
    intro k a hk
    cases k with
    | zero =>
      show ((a :: l).map f).sum = _
      rw [List.map_cons, List.sum_cons, List.map_cons, List.sum_cons]
      have : (x :: l)[0] = x := rfl
      rw [this]
      ring
    | succ k' =>
      have hk2 : k' < l.length := by simpa using Nat.lt_of_succ_lt_succ hk
      show ((x :: l.set k' a).map f).sum = _
      rw [List.map_cons, List.sum_cons, ih k' a hk2, List.map_cons, List.sum_cons]
      have hidx : (x :: l)[k' + 1] = l[k'] := List.getElem_cons_succ x l k' (by simpa using hk)
      rw [hidx]
      ring

theorem sum_map_set_eraseIdx {α : Type} (f : α → ℚ) (l : List α) (a : α)
    (ri rj : Nat) (hri : ri < l.length) (hrj : rj < l.length) (hne : ri ≠ rj) :
    (((l.set ri a).eraseIdx rj).map f).sum
      = (l.map f).sum - f l[ri] - f l[rj] + f a := by
  have hrj2 : rj < (l.set ri a).length := by simpa using hrj
  rw [sum_map_eraseIdx f (l.set ri a) rj hrj2, sum_map_set f l ri a hri]
  have hidx : (l.set ri a)[rj] = l[rj] := List.getElem_set_ne hne hrj2
  rw [hidx]
  ring

theorem route_cost_append (d : List (List ℚ)) (y : Nat) (ys : List Nat) :
    ∀ xs : List Nat,
      route_cost d (xs ++ y :: ys) = route_cost d (xs ++ [y]) + route_cost d (y :: ys) := by
  intro xs
  induction xs with
  | nil => simp [route_cost]
  | cons x xs ih =>
    cases xs with
    | nil =>
      show route_cost d (x :: y :: ys) = route_cost d [x, y] + route_cost d (y :: ys)
      simp [route_cost]
    | cons x2 xs2 =>
      show route_cost d (x :: (x2 :: xs2) ++ y :: ys) = _
      have hlhs : route_cost d (x :: (x2 :: xs2) ++ y :: ys)
          = dget d x x2 + route_cost d ((x2 :: xs2) ++ y :: ys) := by
        simp [route_cost]
      have hrhs : route_cost d ((x :: x2 :: xs2) ++ [y])
          = dget d x x2 + route_cost d ((x2 :: xs2) ++ [y]) := by
        simp [route_cost]
      rw [hlhs, hrhs, ih]
      ring

theorem route_cost_concat (d : List (List ℚ)) (xs : List Nat) (y z : Nat) :
    route_cost d (xs ++ [y, z]) = route_cost d (xs ++ [y]) + dget d y z := by
  have := route_cost_append d y [z] xs
  rw [show (xs ++ [y, z]) = xs ++ y :: [z] from rfl, this]
  simp [route_cost]

theorem route_cost_reverse (d : List (List ℚ)) :
    ∀ l : List Nat, (∀ a ∈ l, ∀ b ∈ l, dget d a b = dget d b a) →
      route_cost d l.reverse = route_cost d l
  | [], _ => rfl
  | [x], _ => rfl
  | x :: y :: rest, hs => by
    have ih := route_cost_reverse d (y :: rest)
      (fun a ha b hb => hs a (List.mem_cons_of_mem x ha) b (List.mem_cons_of_mem x hb))
    have h1 : (x :: y :: rest).reverse = (y :: rest).reverse ++ [x] := by
      rw [List.reverse_cons]
    have h2 : (y :: rest).reverse = rest.reverse ++ [y] := by
      rw [List.reverse_cons]
    rw [h1, h2, show (rest.reverse ++ [y]) ++ [x] = rest.reverse ++ [y, x] by simp,
      route_cost_concat, ← h2, ih]
    have hxy : dget d y x = dget d x y :=
      hs y (List.mem_cons_of_mem x (List.mem_cons_self y rest)) x
        (List.mem_cons_self x (y :: rest))
    rw [hxy]
    show route_cost d (y :: rest) + dget d x y = route_cost d (x :: y :: rest)
    simp [route_cost]
    ring

theorem route_cost_splice (d : List (List ℚ)) (dep x b : Nat) (as2 bs2 : List Nat) :
    route_cost d (dep :: ((as2 ++ [x]) ++ b :: bs2) ++ [dep])
      = route_cost d (dep :: (as2 ++ [x]) ++ [dep])
        + route_cost d (dep :: (b :: bs2) ++ [dep])
        - dget d x dep - dget d dep b + dget d x b := by
  have e1 : dep :: ((as2 ++ [x]) ++ b :: bs2) ++ [dep]
      = ((dep :: as2) ++ [x]) ++ b :: (bs2 ++ [dep]) := by
    simp
  have e2 := route_cost_append d b (bs2 ++ [dep]) ((dep :: as2) ++ [x])
  have e3 : route_cost d (((dep :: as2) ++ [x]) ++ [b])
      = route_cost d ((dep :: as2) ++ [x]) + dget d x b := by
    rw [show ((dep :: as2) ++ [x]) ++ [b] = (dep :: as2) ++ [x, b] by simp,
      route_cost_concat]
  have e4 : route_cost d (dep :: (as2 ++ [x]) ++ [dep])
      = route_cost d ((dep :: as2) ++ [x]) + dget d x dep := by
    rw [show dep :: (as2 ++ [x]) ++ [dep] = (dep :: as2) ++ [x, dep] by simp,
      route_cost_concat]
  have e5 : route_cost d (dep :: (b :: bs2) ++ [dep])
      = dget d dep b + route_cost d (b :: (bs2 ++ [dep])) := by
    simp [route_cost]
  rw [e1, e2, e3, e4, e5]
  ring

theorem head_eq_getD_zero {l : List Nat} (h : l ≠ []) : l.head h = l.getD 0 0 := by
  cases l with
  | nil => exact absurd rfl h
  | cons a l => rfl

/-- Accepting a feasible merge never increases the total cost, provided
the matrix is symmetric on the relevant indices and the merged pair's
saving value is non-negative. -/
theorem cost_merge_le (cfg : CWConfig) (st : CWState) (i j : Nat) (s : ℚ)
    (hInv : Inv cfg st) (hi : i ∈ customersList cfg.n cfg.depot)
    (hj : j ∈ customersList cfg.n cfg.depot) (hdep : cfg.depot < cfg.n)
    (hsym : ∀ a < cfg.n, ∀ b < cfg.n, dget cfg.d a b = dget cfg.d b a)
    (hs0 : 0 ≤ s)
    (hsval : s = dget cfg.d cfg.depot i + dget cfg.d cfg.depot j - dget cfg.d i j)
    (hcm : can_merge cfg st i j = true) :
    total_cost cfg.d (merge cfg st i j).routes ≤ total_cost cfg.d st.routes := by
  obtain ⟨ci, heq, hperm, hcases⟩ := merge_cases cfg st i j hInv hi hj hcm
  have hne := ((can_merge_eq_true_iff cfg st i j).mp hcm).1
  have hri := (hInv.hroc i hi).1
  have hrj := (hInv.hroc j hj).1
  have hPerm := mergeCommit_routes_perm cfg st (st.route_of_customer i)
    (st.route_of_customer j) (cfg.depot :: ci ++ [cfg.depot]) hri hrj hne
  have hTC : total_cost cfg.d (merge cfg st i j).routes
      = total_cost cfg.d st.routes
        - route_cost cfg.d (st.routes.getD (st.route_of_customer i) [])
        - route_cost cfg.d (st.routes.getD (st.route_of_customer j) [])
        + route_cost cfg.d (cfg.depot :: ci ++ [cfg.depot]) := by
    rw [heq]
    show ((mergeCommit cfg st _ _ _).routes.map (route_cost cfg.d)).sum = _
    rw [(hPerm.map (route_cost cfg.d)).sum_eq,
      sum_map_set_eraseIdx (route_cost cfg.d) st.routes _ _ _ hri hrj hne,
      ← getD_eq_getElem_of_lt st.routes _ [] hri,
      ← getD_eq_getElem_of_lt st.routes _ [] hrj]
    rfl
  have hfA := hInv.hform _ (getD_mem_of_lt st.routes _ [] hri)
  have hfB := hInv.hform _ (getD_mem_of_lt st.routes _ [] hrj)
  have has := hfA.2.1
  have hbs := hfB.2.1
  have hboundA : ∀ a ∈ interiorOf (st.routes.getD (st.route_of_customer i) []),
      a < cfg.n := fun a ha' => (mem_customersList.mp ((hInv.hmem _ hri a ha').1)).1
  have hboundB : ∀ a ∈ interiorOf (st.routes.getD (st.route_of_customer j) []),
      a < cfg.n := fun a ha' => (mem_customersList.mp ((hInv.hmem _ hrj a ha').1)).1
  have hin : i < cfg.n := (mem_customersList.mp hi).1
  have hjn : j < cfg.n := (mem_customersList.mp hj).1
  have hbndA : ∀ x ∈ st.routes.getD (st.route_of_customer i) [], x < cfg.n := by
    intro x hx
    rw [hfA.1] at hx
    rcases List.mem_cons.mp hx with rfl | hx2
    · exact hdep
    rcases List.mem_append.mp hx2 with hx3 | hx4
    · exact hboundA x hx3
    · rw [List.mem_singleton] at hx4
      subst hx4
      exact hdep
  have hbndB : ∀ x ∈ st.routes.getD (st.route_of_customer j) [], x < cfg.n := by
    intro x hx
    rw [hfB.1] at hx
    rcases List.mem_cons.mp hx with rfl | hx2
    · exact hdep
    rcases List.mem_append.mp hx2 with hx3 | hx4
    · exact hboundB x hx3
    · rw [List.mem_singleton] at hx4
      subst hx4
      exact hdep
  have hsymA : ∀ a ∈ st.routes.getD (st.route_of_customer i) [],
      ∀ b ∈ st.routes.getD (st.route_of_customer i) [],
      dget cfg.d a b = dget cfg.d b a :=
    fun a ha' b hb' => hsym a (hbndA a ha') b (hbndA b hb')
  have hsymB : ∀ a ∈ st.routes.getD (st.route_of_customer j) [],
      ∀ b ∈ st.routes.getD (st.route_of_customer j) [],
      dget cfg.d a b = dget cfg.d b a :=
    fun a ha' b hb' => hsym a (hbndB a ha') b (hbndB b hb')
  have hkey : route_cost cfg.d (cfg.depot :: ci ++ [cfg.depot])
      = route_cost cfg.d (st.routes.getD (st.route_of_customer i) [])
        + route_cost cfg.d (st.routes.getD (st.route_of_customer j) []) - s := by
    rcases hcases with ⟨hLi, hFj, hci⟩ | ⟨hFi, hLj, hci⟩ | ⟨hFi, hFj, hci⟩ |
      ⟨hLi, hLj, hci⟩
    · -- case 1: i last, j first
      subst hci
      have hlasti := (isLast_iff_last hfA.1 has).mp hLi
      have hheadj := (isFirst_iff_head hfB.1 hbs).mp hFj
      have hasplit : interiorOf (st.routes.getD (st.route_of_customer i) [])
          = (interiorOf (st.routes.getD (st.route_of_customer i) [])).dropLast
            ++ [i] := by
        have h0 := List.dropLast_append_getLast has
        rw [hlasti] at h0
        exact h0.symm
      have hbsplit : interiorOf (st.routes.getD (st.route_of_customer j) [])
          = j :: (interiorOf (st.routes.getD (st.route_of_customer j) [])).tail := by
        have h0 := List.head_cons_tail
          (interiorOf (st.routes.getD (st.route_of_customer j) [])) hbs
        rw [head_eq_getD_zero hbs, hheadj] at h0
        exact h0.symm
      rw [hasplit, hbsplit, route_cost_splice, ← hasplit, ← hbsplit, ← hfA.1,
        ← hfB.1, hsym i hin cfg.depot hdep, hsval]
      ring
    · -- case 2: i first, j last
      subst hci
      have hheadi := (isFirst_iff_head hfA.1 has).mp hFi
      have hlastj := (isLast_iff_last hfB.1 hbs).mp hLj
      have hbsplit : interiorOf (st.routes.getD (st.route_of_customer j) [])
          = (interiorOf (st.routes.getD (st.route_of_customer j) [])).dropLast
            ++ [j] := by
        have h0 := List.dropLast_append_getLast hbs
        rw [hlastj] at h0
        exact h0.symm
      have hasplit : interiorOf (st.routes.getD (st.route_of_customer i) [])
          = i :: (interiorOf (st.routes.getD (st.route_of_customer i) [])).tail := by
        have h0 := List.head_cons_tail
          (interiorOf (st.routes.getD (st.route_of_customer i) [])) has
        rw [head_eq_getD_zero has, hheadi] at h0
        exact h0.symm
      rw [hbsplit, hasplit, route_cost_splice, ← hbsplit, ← hasplit, ← hfA.1,
        ← hfB.1, hsym j hjn cfg.depot hdep, hsym j hjn i hin, hsval]
      ring
    · -- case 3: i first, j first (first route reversed)
      subst hci
      have hheadi := (isFirst_iff_head hfA.1 has).mp hFi
      have hheadj := (isFirst_iff_head hfB.1 hbs).mp hFj
      have hrevne : (interiorOf (st.routes.getD (st.route_of_customer i) [])).reverse
          ≠ [] := by simpa using has
      have hlastrev : ((interiorOf (st.routes.getD
          (st.route_of_customer i) [])).reverse).getLast hrevne = i := by
        rw [List.getLast_reverse, head_eq_getD_zero]
        exact hheadi
      have hrevsplit : (interiorOf (st.routes.getD
            (st.route_of_customer i) [])).reverse
          = ((interiorOf (st.routes.getD
            (st.route_of_customer i) [])).reverse).dropLast ++ [i] := by
        have h0 := List.dropLast_append_getLast hrevne
        rw [hlastrev] at h0
        exact h0.symm
      have hbsplit : interiorOf (st.routes.getD (st.route_of_customer j) [])
          = j :: (interiorOf (st.routes.getD (st.route_of_customer j) [])).tail := by
        have h0 := List.head_cons_tail
          (interiorOf (st.routes.getD (st.route_of_customer j) [])) hbs
        rw [head_eq_getD_zero hbs, hheadj] at h0
        exact h0.symm
      have hArev : route_cost cfg.d (cfg.depot ::
            (interiorOf (st.routes.getD (st.route_of_customer i) [])).reverse
            ++ [cfg.depot])
          = route_cost cfg.d (st.routes.getD (st.route_of_customer i) []) := by
        rw [show (cfg.depot ::
              (interiorOf (st.routes.getD (st.route_of_customer i) [])).reverse
              ++ [cfg.depot])
            = (cfg.depot :: interiorOf (st.routes.getD (st.route_of_customer i) [])
              ++ [cfg.depot]).reverse from (reverse_anchored _ _).symm, ← hfA.1]
        exact route_cost_reverse cfg.d _ hsymA
      rw [hrevsplit, hbsplit, route_cost_splice, ← hrevsplit, ← hbsplit, hArev,
        ← hfB.1, hsym i hin cfg.depot hdep, hsval]
      ring
    · -- case 4: i last, j last (second route reversed)
      subst hci
      have hlasti := (isLast_iff_last hfA.1 has).mp hLi
      have hlastj := (isLast_iff_last hfB.1 hbs).mp hLj
      have hasplit : interiorOf (st.routes.getD (st.route_of_customer i) [])
          = (interiorOf (st.routes.getD (st.route_of_customer i) [])).dropLast
            ++ [i] := by
        have h0 := List.dropLast_append_getLast has
        rw [hlasti] at h0
        exact h0.symm
      have hrevbne : (interiorOf (st.routes.getD (st.route_of_customer j) [])).reverse
          ≠ [] := by simpa using hbs
      have hheadrev : ((interiorOf (st.routes.getD
          (st.route_of_customer j) [])).reverse).head hrevbne = j := by
        rw [List.head_reverse]
        exact hlastj
      have hrevbsplit : (interiorOf (st.routes.getD
            (st.route_of_customer j) [])).reverse
          = j :: ((interiorOf (st.routes.getD
            (st.route_of_customer j) [])).reverse).tail := by
        have h0 := List.head_cons_tail
          ((interiorOf (st.routes.getD (st.route_of_customer j) [])).reverse) hrevbne
        rw [hheadrev] at h0
        exact h0.symm
      have hBrev : route_cost cfg.d (cfg.depot ::
            (interiorOf (st.routes.getD (st.route_of_customer j) [])).reverse
            ++ [cfg.depot])
          = route_cost cfg.d (st.routes.getD (st.route_of_customer j) []) := by
        rw [show (cfg.depot ::
              (interiorOf (st.routes.getD (st.route_of_customer j) [])).reverse
              ++ [cfg.depot])
            = (cfg.depot :: interiorOf (st.routes.getD (st.route_of_customer j) [])
              ++ [cfg.depot]).reverse from (reverse_anchored _ _).symm, ← hfB.1]
        exact route_cost_reverse cfg.d _ hsymB
      rw [hasplit, hrevbsplit, route_cost_splice, ← hasplit, ← hrevbsplit, hBrev,
        ← hfA.1, hsym i hin cfg.depot hdep, hsval]
      ring
  rw [hTC, hkey]
  linarith

theorem cost_step_le (cfg : CWConfig) (st : CWState) (t : ℚ × Nat × Nat)
    (hInv : Inv cfg st) (hdep : cfg.depot < cfg.n)
    (hsym : ∀ a < cfg.n, ∀ b < cfg.n, dget cfg.d a b = dget cfg.d b a)
    (h1 : t.2.1 ∈ customersList cfg.n cfg.depot)
    (h2 : t.2.2 ∈ customersList cfg.n cfg.depot)
    (hs0 : 0 ≤ t.1)
    (hsval : t.1 = dget cfg.d cfg.depot t.2.1 + dget cfg.d cfg.depot t.2.2
      - dget cfg.d t.2.1 t.2.2) :
    total_cost cfg.d (step cfg st t).routes ≤ total_cost cfg.d st.routes := by
  unfold step
  split_ifs with h
  · exact cost_merge_le cfg st t.2.1 t.2.2 t.1 hInv h1 h2 hdep hsym hs0 hsval h
  · exact le_refl _

theorem cost_applyMerges (cfg : CWConfig) (ts : List (ℚ × Nat × Nat)) (st : CWState)
    (hInv : Inv cfg st) (hdep : cfg.depot < cfg.n)
    (hsym : ∀ a < cfg.n, ∀ b < cfg.n, dget cfg.d a b = dget cfg.d b a)
    (hts : ∀ t ∈ ts, t.2.1 ∈ customersList cfg.n cfg.depot ∧
      t.2.2 ∈ customersList cfg.n cfg.depot ∧ 0 ≤ t.1 ∧
      t.1 = dget cfg.d cfg.depot t.2.1 + dget cfg.d cfg.depot t.2.2
        - dget cfg.d t.2.1 t.2.2) :
    total_cost cfg.d (applyMerges cfg ts st).routes ≤ total_cost cfg.d st.routes := by
  induction ts generalizing st with
  | nil => exact le_refl _
  | cons a ts ih =>
    have ha := hts a (List.mem_cons_self a ts)
    calc total_cost cfg.d (applyMerges cfg (a :: ts) st).routes
        = total_cost cfg.d (applyMerges cfg ts (step cfg st a)).routes := rfl
      _ ≤ total_cost cfg.d (step cfg st a).routes :=
          ih _ (inv_step cfg st a hInv ha.1 ha.2.1)
            (fun t ht => hts t (List.mem_cons_of_mem a ht))
      _ ≤ total_cost cfg.d st.routes :=
          cost_step_le cfg st a hInv hdep hsym ha.1 ha.2.1 ha.2.2.1 ha.2.2.2

theorem total_cost_init (cfg : CWConfig) :
    total_cost cfg.d (init_routes cfg).routes = baselineCost cfg := by
  unfold total_cost baselineCost
  show (((customersList cfg.n cfg.depot).map
      (fun i => [cfg.depot, i, cfg.depot])).map (route_cost cfg.d)).sum = _
  rw [List.map_map]
  congr 1
  refine List.map_congr_left ?_
  intro c hc
  show route_cost cfg.d [cfg.depot, c, cfg.depot] = _
  simp [route_cost]

unseal Rat.add Rat.sub in
/-- Counterexample to C7 as stated: `cfgC7` has a symmetric matrix with
only non-negative entries, yet `solve` (which merges even when the
saving is negative) returns total cost 100 while the trivial
one-route-per-customer baseline costs 0. -/
theorem C7_cost_counterexample :
    (∀ row ∈ cfgC7.d, ∀ x ∈ row, 0 ≤ x) ∧
    (∀ a < cfgC7.n, ∀ b < cfgC7.n, dget cfgC7.d a b = dget cfgC7.d b a) ∧
    (solve cfgC7).total_cost = 100 ∧ baselineCost cfgC7 = 0 ∧
    ¬((solve cfgC7).total_cost ≤ baselineCost cfgC7) := by
  decide

/-- C7 amended: the total cost of `solve`'s result is at most the
one-route-per-customer baseline, provided additionally that the matrix
is symmetric (on indices below N) and that every computed saving value
is non-negative — the code merges regardless of the saving's sign, and
each accepted merge changes the total cost by exactly minus its saving
only under symmetry. -/
theorem C7_cost_improvement (cfg : CWConfig)
    (hnn : ∀ row ∈ cfg.d, ∀ x ∈ row, 0 ≤ x)
    (hdep : cfg.depot < cfg.n)
    (hsym : ∀ a < cfg.n, ∀ b < cfg.n, dget cfg.d a b = dget cfg.d b a)
    (hsav : ∀ t ∈ compute_savings cfg, 0 ≤ t.1) :
    (solve cfg).total_cost ≤ baselineCost cfg := by
  have hts : ∀ t ∈ compute_savings cfg, t.2.1 ∈ customersList cfg.n cfg.depot ∧
      t.2.2 ∈ customersList cfg.n cfg.depot ∧ 0 ≤ t.1 ∧
      t.1 = dget cfg.d cfg.depot t.2.1 + dget cfg.d cfg.depot t.2.2
        - dget cfg.d t.2.1 t.2.2 := by
    intro t ht
    have hm := (mem_rawSavings cfg t).mp ((mem_compute_savings cfg t).mp ht)
    exact ⟨hm.1, hm.2.1, hsav t ht, hm.2.2.2⟩
  have h1 : (solve cfg).total_cost
      = total_cost cfg.d
        (applyMerges cfg (compute_savings cfg) (init_routes cfg)).routes := rfl
  rw [h1, ← total_cost_init cfg]
  exact cost_applyMerges cfg (compute_savings cfg) (init_routes cfg) (inv_init cfg)
    hdep hsym hts

unseal Rat.add Rat.sub in
/-- Witness for the amended C7 at the worked scenario (symmetric matrix,
savings 32, 15, 15, all non-negative). -/
theorem C7_cost_improvement_witness :
    (∀ row ∈ cfg5.d, ∀ x ∈ row, 0 ≤ x) ∧ cfg5.depot < cfg5.n ∧
    (∀ a < cfg5.n, ∀ b < cfg5.n, dget cfg5.d a b = dget cfg5.d b a) ∧
    (∀ t ∈ compute_savings cfg5, 0 ≤ t.1) ∧
    (solve cfg5).total_cost ≤ baselineCost cfg5 :=
  ⟨by decide, by decide, by decide, by decide,
    C7_cost_improvement cfg5 (by decide) (by decide) (by decide) (by decide)⟩

end CW
